import Mathlib

/-!
# MuPDF.WinRT : page cache, text search and outline flattening of `Src/MuPDFDoc.cpp`

Shallow embedding of the cache (`GotoPage`, `FindPageInCache`, `GetPageCacheIndex`,
`ClearPageCache`, `UpdatePage`), of the text search (`TextLen`, `TextCharAt`, `Match`,
`SearchText`) and of the outline flattening (`FillOutline`, `GetOutline`).

Conventions of the embedding.

* `int` values are unbounded integers (`Int`); text offsets, which every caller keeps
  non-negative, are natural numbers.
* A C pointer is an `Option`: `none` is `nullptr`, `some h` a live engine object.
* `m_pages` is the array of the `NUM_CACHE` slots; `NUM_CACHE` comes from a header that is not
  part of the sources, so it is the length of the list, a parameter of the constructor.
* Calls into the rendering engine are parameters: an outcome value says whether the call
  raised (`fz_throw`) or what it returned.
-/

set_option autoImplicit false

namespace MuPDF

/-! ## Data model -/

/-- Handle of a live engine object (a page or a display list). -/
abbrev Handle := Nat

/-- Result codes used by the cache operations. -/
inductive HRESULT where
  | S_OK
  | E_FAIL
  deriving DecidableEq, Repr

/-- Rectangle `fz_rect`; the cache only stores media boxes and never inspects them. -/
structure fz_rect where
  x0 : Int
  y0 : Int
  x1 : Int
  y1 : Int
  deriving DecidableEq, Repr

/-- Integer bounding box `fz_bbox`. -/
structure fz_bbox where
  x0 : Int
  y0 : Int
  x1 : Int
  y1 : Int
  deriving DecidableEq, Repr

/-- One cache slot, `PageCache`. -/
structure PageCache where
  number : Int
  width : Int
  height : Int
  mediaBox : fz_rect
  page : Option Handle
  hqPage : Option Handle
  pageList : Option Handle
  annotList : Option Handle
  deriving DecidableEq, Repr

/-- The cache part of the `MuPDFDoc` object. -/
structure MuPDFDoc where
  m_pages : List PageCache
  m_currentPage : Int
  deriving DecidableEq, Repr

/-- Slot as the constructor `MuPDFDoc::MuPDFDoc` leaves it (the media box is not initialised
by the constructor; it is taken as the zero rectangle). -/
def freshSlot : PageCache :=
  { number := -1, width := 0, height := 0, mediaBox := ⟨0, 0, 0, 0⟩,
    page := none, hqPage := none, pageList := none, annotList := none }

/-- Constructor `MuPDFDoc::MuPDFDoc`: `NUM_CACHE` unused slots, no current page. -/
def MuPDFDoc.new (NUM_CACHE : Nat) : MuPDFDoc :=
  { m_pages := List.replicate NUM_CACHE freshSlot, m_currentPage := -1 }

/-! ## Cache lookup and victim selection -/

/-- Loop of `FindPageInCache`, started at slot index `i` on the slots from `i` on. -/
def FindPageInCache.loop (pageNumber : Int) : List PageCache → Nat → Int
  | [], _ => -1
  | pc :: rest, i =>
    if pc.page.isSome ∧ pc.number = pageNumber then (i : Int)
    else FindPageInCache.loop pageNumber rest (i + 1)

/-- The function `MuPDFDoc::FindPageInCache`. -/
def FindPageInCache (doc : MuPDFDoc) (pageNumber : Int) : Int :=
  FindPageInCache.loop pageNumber doc.m_pages 0

/-- The C library function `abs` on integers that do not overflow. -/
def abs (x : Int) : Int := if x < 0 then -x else x

/-- Loop of `GetPageCacheIndex`, started at slot index `i` with the running `furthest` and
`furthestDist`. -/
def GetPageCacheIndex.loop (pageNumber : Int) : List PageCache → Nat → Int → Int → Int
  | [], _, furthest, _ => furthest
  | pc :: rest, i, furthest, furthestDist =>
    if pc.page.isNone then (i : Int)
    else
      let dist := abs (pc.number - pageNumber)
      if dist > furthestDist then GetPageCacheIndex.loop pageNumber rest (i + 1) (i : Int) dist
      else GetPageCacheIndex.loop pageNumber rest (i + 1) furthest furthestDist

/-- The function `MuPDFDoc::GetPageCacheIndex`. -/
def GetPageCacheIndex (doc : MuPDFDoc) (pageNumber : Int) : Int :=
  GetPageCacheIndex.loop pageNumber doc.m_pages 0 0 (-1)

/-- Distance of slot `i` from the requested page, `abs(m_pages[i].number - pageNumber)`. -/
def slotDist (doc : MuPDFDoc) (pageNumber : Int) (i : Nat) : Int :=
  match doc.m_pages[i]? with
  | some pc => abs (pc.number - pageNumber)
  | none => 0

/-- Every slot of the cache holds a loaded page. -/
def allLoaded (doc : MuPDFDoc) : Prop :=
  ∀ pc ∈ doc.m_pages, pc.page.isSome = true

instance (doc : MuPDFDoc) : Decidable (allLoaded doc) := by
  unfold allLoaded; infer_instance

/-! ## Page selection -/

/-- The function `MuPDFDoc::ClearPageCache`: both display lists and both page handles of the
slot are released and set to `nullptr`; number, size and media box are left alone. -/
def ClearPageCache (pageCache : PageCache) : PageCache :=
  { pageCache with pageList := none, annotList := none, page := none, hqPage := none }

/-- What the engine does inside the `fz_try` block of `GotoPage`.  `fz_load_page` either raises
or returns the handle of the loaded page; `fz_bound_page` either raises or returns the media
box, and `bbox` is `fz_round_rect(fz_transform_rect(ctm, mediaBox))` as the engine computes it
(floating point, not re-computed here). -/
inductive LoadOutcome where
  | loadThrows
  | boundThrows (page : Handle)
  | loaded (page : Handle) (mediaBox : fz_rect) (bbox : fz_bbox)
  deriving DecidableEq, Repr

/-- Statements of `GotoPage` on the chosen slot, from `ClearPageCache` to the end of the
`fz_try` block. -/
def loadInto (pageCache : PageCache) (pageNumber : Int) (eng : LoadOutcome) :
    HRESULT × PageCache :=
  let pc := ClearPageCache pageCache
  let pc := { pc with width := 100, height := 100, number := pageNumber }
  match eng with
  | .loadThrows => (.E_FAIL, pc)
  | .boundThrows page => (.E_FAIL, { pc with page := some page })
  | .loaded page mediaBox bbox =>
    (.S_OK, { pc with page := some page, mediaBox := mediaBox,
                       width := bbox.x1 - bbox.x0, height := bbox.y1 - bbox.y0 })

/-- The function `MuPDFDoc::GotoPage`, with the engine outcome `eng` of its `fz_try` block
(not consulted when the page is found in the cache).  `pageCache` points to
`m_pages[m_currentPage]`, so the slot is read, rewritten and stored back. -/
def GotoPage (doc : MuPDFDoc) (pageNumber : Int) (eng : LoadOutcome) : HRESULT × MuPDFDoc :=
  let index := FindPageInCache doc pageNumber
  if index ≥ 0 then
    (.S_OK, { doc with m_currentPage := index })
  else
    let index := GetPageCacheIndex doc pageNumber
    let r := loadInto (doc.m_pages.getD index.toNat freshSlot) pageNumber eng
    (r.1, { m_pages := doc.m_pages.set index.toNat r.2, m_currentPage := index })

/-- State after a sequence of `GotoPage` calls, each with its page number and the outcome of
its engine calls. -/
def runGotoPages (doc : MuPDFDoc) (calls : List (Int × LoadOutcome)) : MuPDFDoc :=
  calls.foldl (fun d call => (GotoPage d call.1 call.2).2) doc

/-! ## Drawing -/

/-- Points of the `fz_try` block of `DrawPage` and `UpdatePage` at which the engine can raise. -/
inductive DrawStage where
  | update
  | contents
  | newAnnotList
  | annots
  | composite
  deriving DecidableEq, Repr

/-- What the engine does inside the `fz_try` block of `DrawPage` and `UpdatePage`: the display
lists `fz_new_display_list` hands out, and the stage at which a call raises, if any (a stage
that is not executed cannot raise). -/
structure DrawEngine where
  pageList : Handle
  annotList : Handle
  raisesAt : Option DrawStage
  deriving DecidableEq, Repr

/-- What a draw operation put into the caller's bitmap: nothing, the grey placeholder, the whole
rectangle composited from the lists of a slot, the changed annotation boxes repainted from the
lists of a slot, or an unspecified part when the engine raised while painting. -/
inductive Painted where
  | nothing
  | placeholder
  | full (pc : PageCache)
  | patches (pc : PageCache)
  | unspecified
  deriving DecidableEq, Repr

/-- Common first part of the `fz_try` blocks of `DrawPage` and `UpdatePage`: `fz_update_page`
and the lazy construction of the two display lists.  Returns whether the engine raised and the
slot as it is left. -/
def buildLists (pc : PageCache) (eng : DrawEngine) : Bool × PageCache :=
  if eng.raisesAt = some .update then (true, pc)
  else
    let step1 : Bool × PageCache :=
      if pc.pageList.isNone then
        (decide (eng.raisesAt = some .contents), { pc with pageList := some eng.pageList })
      else (false, pc)
    if step1.1 then step1
    else if step1.2.annotList.isNone then
      if eng.raisesAt = some .newAnnotList then (true, step1.2)
      else (decide (eng.raisesAt = some .annots),
            { step1.2 with annotList := some eng.annotList })
    else (false, step1.2)

/-- The slot `m_pages[m_currentPage]`, when `m_currentPage` is a valid index. -/
def currentSlot (doc : MuPDFDoc) : Option PageCache :=
  if doc.m_currentPage < 0 then none else doc.m_pages[doc.m_currentPage.toNat]?

/-- The function `MuPDFDoc::DrawPage`.  `none` stands for the access `m_pages[m_currentPage]`
outside the array. -/
def DrawPage (doc : MuPDFDoc) (eng : DrawEngine) : Option (HRESULT × MuPDFDoc × Painted) :=
  match currentSlot doc with
  | none => none
  | some pc =>
    let built := buildLists pc eng
    let doc1 : MuPDFDoc :=
      { doc with m_pages := doc.m_pages.set doc.m_currentPage.toNat built.2 }
    if built.1 then some (.E_FAIL, doc1, .nothing)
    else if built.2.pageList.isNone ∧ built.2.annotList.isNone then
      some (.S_OK, doc1, .placeholder)
    else if eng.raisesAt = some .composite then some (.E_FAIL, doc1, .unspecified)
    else some (.S_OK, doc1, .full built.2)

/-- The function `MuPDFDoc::UpdatePage`, with the engine outcomes of the page load (used by the
fallback) and of the drawing. -/
def UpdatePage (doc : MuPDFDoc) (pageNumber : Int) (load : LoadOutcome) (eng : DrawEngine) :
    Option (HRESULT × MuPDFDoc × Painted) :=
  let index := FindPageInCache doc pageNumber
  if index < 0 then
    let r := GotoPage doc pageNumber load
    if r.1 = .E_FAIL then some (r.1, r.2, .nothing)
    else DrawPage r.2 eng
  else
    match currentSlot doc with
    | none => none
    | some pc =>
      let built := buildLists pc eng
      let doc1 : MuPDFDoc :=
        { doc with m_pages := doc.m_pages.set doc.m_currentPage.toNat built.2 }
      if built.1 then some (.E_FAIL, doc1, .nothing)
      else if eng.raisesAt = some .composite then some (.E_FAIL, doc1, .unspecified)
      else some (.S_OK, doc1, .patches built.2)

/-! ## Page text -/

/-- One extracted character, `fz_text_char`: its box and its code point.  Boxes have integer
coordinates here, so that `fz_round_rect` is the identity on them. -/
structure fz_text_char where
  bbox : fz_bbox
  c : Int
  deriving DecidableEq, Repr

/-- A span of characters, `fz_text_span` (`len` is the length of `text`). -/
structure fz_text_span where
  text : List fz_text_char
  deriving DecidableEq, Repr

/-- A line, `fz_text_line` (`len` is the number of spans). -/
structure fz_text_line where
  spans : List fz_text_span
  deriving DecidableEq, Repr

/-- A block, `fz_text_block` (`len` is the number of lines). -/
structure fz_text_block where
  lines : List fz_text_line
  deriving DecidableEq, Repr

/-- The extracted text of a page, `fz_text_page` (`len` is the number of blocks). -/
structure fz_text_page where
  blocks : List fz_text_block
  deriving DecidableEq, Repr

/-- The static `emptychar` of `TextCharAt`: a space with the zero box. -/
def emptychar : fz_text_char := { bbox := ⟨0, 0, 0, 0⟩, c := 32 }

/-- Span loop of `TextLen`. -/
def TextLen.spans : List fz_text_span → Nat → Nat
  | [], len => len
  | span :: rest, len => TextLen.spans rest (len + span.text.length)

/-- Line loop of `TextLen`: the spans of the line, then the pseudo-newline. -/
def TextLen.lines : List fz_text_line → Nat → Nat
  | [], len => len
  | line :: rest, len => TextLen.lines rest (TextLen.spans line.spans len + 1)

/-- Block loop of `TextLen`. -/
def TextLen.blocks : List fz_text_block → Nat → Nat
  | [], len => len
  | block :: rest, len => TextLen.blocks rest (TextLen.lines block.lines len)

/-- The function `TextLen`. -/
def TextLen (page : fz_text_page) : Nat :=
  TextLen.blocks page.blocks 0

/-- State of the scan of `TextCharAt`: it has returned a character, or it goes on with the
offset `ofs`. -/
inductive Scan where
  | found (ch : fz_text_char)
  | next (ofs : Nat)
  deriving DecidableEq, Repr

/-- Span loop of `TextCharAt`; `rest.isEmpty` is the test `span + 1 == line->spans + line->len`. -/
def TextCharAt.spans (idx : Nat) : List fz_text_span → Nat → Scan
  | [], ofs => .next ofs
  | span :: rest, ofs =>
    if idx < ofs + span.text.length then .found (span.text.getD (idx - ofs) emptychar)
    else if rest.isEmpty then
      if idx = ofs + span.text.length then .found emptychar
      else TextCharAt.spans idx rest (ofs + 1 + span.text.length)
    else TextCharAt.spans idx rest (ofs + span.text.length)

/-- Line loop of `TextCharAt`. -/
def TextCharAt.lines (idx : Nat) : List fz_text_line → Nat → Scan
  | [], ofs => .next ofs
  | line :: rest, ofs =>
    match TextCharAt.spans idx line.spans ofs with
    | .found ch => .found ch
    | .next ofs1 => TextCharAt.lines idx rest ofs1

/-- Block loop of `TextCharAt`. -/
def TextCharAt.blocks (idx : Nat) : List fz_text_block → Nat → Scan
  | [], ofs => .next ofs
  | block :: rest, ofs =>
    match TextCharAt.lines idx block.lines ofs with
    | .found ch => .found ch
    | .next ofs1 => TextCharAt.blocks idx rest ofs1

/-- The function `TextCharAt`. -/
def TextCharAt (page : fz_text_page) (idx : Nat) : fz_text_char :=
  match TextCharAt.blocks idx page.blocks 0 with
  | .found ch => ch
  | .next _ => emptychar

/-- The function `CharAt`. -/
def CharAt (page : fz_text_page) (idx : Nat) : Int :=
  (TextCharAt page idx).c

/-- The function `BBoxCharAt`. -/
def BBoxCharAt (page : fz_text_page) (idx : Nat) : fz_bbox :=
  (TextCharAt page idx).bbox

/-- Flattened text of a line in the words of the specification: the characters of its spans
with no separator, then one synthetic separator. -/
def flatLine (line : fz_text_line) : List fz_text_char :=
  (line.spans.map (fun span => span.text)).flatten ++ [emptychar]

/-- Flattened text of a page in the words of the specification: its lines in order, each
followed by its separator. -/
def flatText (page : fz_text_page) : List fz_text_char :=
  (page.blocks.map (fun block => (block.lines.map flatLine).flatten)).flatten

/-! ## Search -/

/-- The C library function `tolower` in the C locale. -/
def tolower (c : Int) : Int :=
  if 65 ≤ c ∧ c ≤ 90 then c + 32 else c

/-- The loop `while (CharAt(page, n) == ' ') n++;` of `Match`, run for at most `fuel` tests of
its condition; `none` when the fuel runs out before the condition is false. -/
def Match.skip (page : fz_text_page) : Nat → Nat → Option Nat
  | 0, _ => none
  | fuel + 1, n => if CharAt page n = 32 then Match.skip page fuel (n + 1) else some n

/-- Outer loop of `Match` over the decoded runes of the needle (`fz_chartorune`), at offset `n`
of the page text; `fuel` bounds each run of the inner loop. -/
def Match.loop (page : fz_text_page) (fuel : Nat) (orig : Nat) : List Int → Nat → Option Nat
  | [], n => some (n - orig)
  | c :: str, n =>
    if c = 32 ∧ CharAt page n = 32 then
      match Match.skip page fuel n with
      | none => none
      | some n1 => Match.loop page fuel orig str n1
    else if tolower c ≠ tolower (CharAt page n) then some 0
    else Match.loop page fuel orig str (n + 1)

/-- The function `Match`; `none` when an inner loop does not end within `fuel` tests. -/
def Match (fuel : Nat) (page : fz_text_page) (str : List Int) (n : Nat) : Option Nat :=
  Match.loop page fuel n str n

/-- Modelled from the spec: the engine constant `fz_empty_bbox`, the empty box. -/
def fz_empty_bbox : fz_bbox := ⟨0, 0, 0, 0⟩

/-- Modelled from the spec: the engine test `fz_is_empty_bbox`; a box is empty when it has no
width or no height, as the boxes of the synthetic separators. -/
def fz_is_empty_bbox (b : fz_bbox) : Bool :=
  b.x0 == b.x1 || b.y0 == b.y1

/-- Modelled from the spec: the engine function `fz_union_bbox`; empty boxes do not contribute
to a union. -/
def fz_union_bbox (a b : fz_bbox) : fz_bbox :=
  if fz_is_empty_bbox a then b
  else if fz_is_empty_bbox b then a
  else ⟨min a.x0 b.x0, min a.y0 b.y0, max a.x1 b.x1, max a.y1 b.y1⟩

/-- The loop `for (i = 0; i < n; i++) rr = fz_union_bbox(rr, BBoxCharAt(text, pos + i))`. -/
def SearchText.union (text : fz_text_page) (pos : Nat) : Nat → Nat → fz_bbox → fz_bbox
  | 0, _, rr => rr
  | k + 1, i, rr => SearchText.union text pos k (i + 1) (fz_union_bbox rr (BBoxCharAt text (pos + i)))

/-- The loop over `pos` of `SearchText`, with `k` positions left. -/
def SearchText.loop (MAX_SEARCH_HITS : Int) (fuel : Nat) (text : fz_text_page)
    (searchText : List Int) : Nat → Nat → Int → List fz_bbox → Option (List fz_bbox)
  | 0, _, _, hints => some hints
  | k + 1, pos, hitCount, hints =>
    match Match fuel text searchText pos with
    | none => none
    | some n =>
      let rr := SearchText.union text pos n 0 fz_empty_bbox
      if ¬ fz_is_empty_bbox rr ∧ hitCount < MAX_SEARCH_HITS then
        if hitCount + 1 ≥ MAX_SEARCH_HITS then some (hints ++ [rr])
        else SearchText.loop MAX_SEARCH_HITS fuel text searchText k (pos + 1) (hitCount + 1)
               (hints ++ [rr])
      else SearchText.loop MAX_SEARCH_HITS fuel text searchText k (pos + 1) hitCount hints

/-- The search of `MuPDFDoc::SearchText` on the extracted text of the current page, with the
needle as its decoded runes; `none` when a call of `Match` does not return within `fuel`. -/
def SearchText (MAX_SEARCH_HITS : Int) (fuel : Nat) (text : fz_text_page)
    (searchText : List Int) : Option (List fz_bbox) :=
  SearchText.loop MAX_SEARCH_HITS fuel text searchText (TextLen text) 0 0 []

/-! ## Outline -/

/-- Destination kinds of the engine that the code tells apart. -/
inductive fz_link_kind where
  | FZ_LINK_NONE
  | FZ_LINK_GOTO
  | FZ_LINK_URI
  | FZ_LINK_GOTOR
  deriving DecidableEq, Repr

/-- The outline of the engine, `fz_outline *`: `null` is the null pointer, a node has its title
(`none` for a null title), its destination kind and page, its first child `down` and its next
sibling `next`. -/
inductive fz_outline where
  | null
  | node (title : Option String) (kind : fz_link_kind) (page : Int)
      (down : fz_outline) (next : fz_outline)
  deriving DecidableEq, Repr

/-- One entry of the flattened outline, `Outlineitem`. -/
structure Outlineitem where
  level : Int
  pageNumber : Int
  title : String
  deriving DecidableEq, Repr

/-- The function `MuPDFDoc::FillOutline`; the vector `items` is threaded through. -/
def FillOutline : fz_outline → List Outlineitem → Int → Int → List Outlineitem × Int
  | .null, items, position, _ => (items, position)
  | .node title kind page down next, items, position, level =>
    let here : List Outlineitem × Int :=
      if kind = .FZ_LINK_GOTO then
        match title with
        | some t =>
          if page ≥ 0 then (items ++ [{ level := level, pageNumber := page, title := t }],
                            position + 1)
          else (items, position)
        | none => (items, position)
      else (items, position)
    let below := FillOutline down here.1 here.2 (level + 1)
    if below.2 < 0 then (below.1, -1)
    else FillOutline next below.1 below.2 level

/-- The function `MuPDFDoc::GetOutline` on the outline `m_outline`. -/
def GetOutline (m_outline : fz_outline) : List Outlineitem :=
  (FillOutline m_outline [] 0 0).1

/-- Depth-first pre-order list of the nodes of an outline forest, each with its depth. -/
def preorder : fz_outline → Int → List (Int × Option String × fz_link_kind × Int)
  | .null, _ => []
  | .node title kind page down next, depth =>
    (depth, title, kind, page) :: (preorder down (depth + 1) ++ preorder next depth)

/-- Item for a node as the claim describes the filter: the destination is a page-goto and the
node carries a title. -/
def statedItem (n : Int × Option String × fz_link_kind × Int) : Option Outlineitem :=
  if n.2.2.1 = .FZ_LINK_GOTO then
    n.2.1.map (fun t => { level := n.1, pageNumber := n.2.2.2, title := t })
  else none

/-- Item for a node with the page guard of the code added: the destination is a page-goto to a
page number that is not negative, and the node carries a title. -/
def guardedItem (n : Int × Option String × fz_link_kind × Int) : Option Outlineitem :=
  if n.2.2.1 = .FZ_LINK_GOTO ∧ n.2.2.2 ≥ 0 then
    n.2.1.map (fun t => { level := n.1, pageNumber := n.2.2.2, title := t })
  else none

/-! ## Cache invariants -/

/-- No two distinct slots that hold a loaded page have the same page number. -/
def noDuplicatePage (doc : MuPDFDoc) : Prop :=
  ∀ (i j : Nat) (pi pj : PageCache), doc.m_pages[i]? = some pi → doc.m_pages[j]? = some pj →
    i ≠ j → pi.page.isSome = true → pj.page.isSome = true → pi.number ≠ pj.number

/-- A slot is as the constructor left it, or its number is a page number that is not negative. -/
def untouchedOrNumbered (doc : MuPDFDoc) : Prop :=
  ∀ pc ∈ doc.m_pages, pc = freshSlot ∨ 0 ≤ pc.number

/-! ## Sample data -/

/-- Cache of three loaded slots holding pages 10, 2 and 7. -/
def sampleFull : MuPDFDoc :=
  { m_pages := [{ freshSlot with number := 10, page := some 1 },
                { freshSlot with number := 2, page := some 2 },
                { freshSlot with number := 7, page := some 3 }],
    m_currentPage := 2 }

/-- Cache of three slots of which only the first is loaded. -/
def sampleOneLoaded : MuPDFDoc :=
  { m_pages := [{ freshSlot with number := 10, page := some 1 }, freshSlot, freshSlot],
    m_currentPage := 0 }

/-- Sequence of selections: pages 0, 1, 2, 3, where the load of page 2 fails. -/
def sampleCalls : List (Int × LoadOutcome) :=
  [(0, .loaded 1 ⟨0, 0, 612, 792⟩ ⟨0, 0, 612, 792⟩),
   (1, .loaded 2 ⟨0, 0, 612, 792⟩ ⟨0, 0, 612, 792⟩),
   (2, .loadThrows),
   (3, .loaded 4 ⟨0, 0, 612, 792⟩ ⟨0, 0, 612, 792⟩)]

/-- Slot 0 after the sample sequence on three slots: page 0. -/
def sampleSlot0 : PageCache :=
  { number := 0, width := 612, height := 792, mediaBox := ⟨0, 0, 612, 792⟩, page := some 1,
    hqPage := none, pageList := none, annotList := none }

/-- Slot 1 after the sample sequence on three slots: page 1. -/
def sampleSlot1 : PageCache :=
  { number := 1, width := 612, height := 792, mediaBox := ⟨0, 0, 612, 792⟩, page := some 2,
    hqPage := none, pageList := none, annotList := none }

/-- Two successful selections: page 0, then page 1. -/
def twoPages : List (Int × LoadOutcome) :=
  [(0, .loaded 1 ⟨0, 0, 612, 792⟩ ⟨0, 0, 612, 792⟩),
   (1, .loaded 2 ⟨0, 0, 612, 792⟩ ⟨0, 0, 612, 792⟩)]

/-- Slot 1 holding page 1 with both display lists built by the engine `⟨10, 11, none⟩`. -/
def sampleSlot1Drawn : PageCache :=
  { sampleSlot1 with pageList := some 10, annotList := some 11 }

/-- Cache of `k + 2` slots after the successful selection of page 0. -/
def afterPage0 (k : Nat) : MuPDFDoc :=
  { m_pages := sampleSlot0 :: freshSlot :: List.replicate k freshSlot, m_currentPage := 0 }

/-- Cache of `k + 2` slots after the successful selections of page 0 and page 1. -/
def afterTwoPages (k : Nat) : MuPDFDoc :=
  { m_pages := sampleSlot0 :: sampleSlot1 :: List.replicate k freshSlot, m_currentPage := 1 }

/-- The glyph `a` with a box of 10 by 10 at the origin. -/
def glyphA : fz_text_char := { bbox := ⟨0, 0, 10, 10⟩, c := 97 }

/-- A space of the document with a box of 5 by 10. -/
def glyphSpace : fz_text_char := { bbox := ⟨10, 0, 15, 10⟩, c := 32 }

/-- The glyph `a` with a box of 10 by 10 after the space. -/
def glyphA2 : fz_text_char := { bbox := ⟨15, 0, 25, 10⟩, c := 97 }

/-- Page with one block of two lines: a line without spans, then the line `a`. -/
def pageEmptyLine : fz_text_page :=
  { blocks := [{ lines := [{ spans := [] }, { spans := [{ text := [glyphA] }] }] }] }

/-- Page with the single line `a`. -/
def pageA : fz_text_page :=
  { blocks := [{ lines := [{ spans := [{ text := [glyphA] }] }] }] }

/-- Page with the single line `a a`, every glyph with a non-empty box. -/
def pageAA : fz_text_page :=
  { blocks := [{ lines := [{ spans := [{ text := [glyphA, glyphSpace, glyphA2] }] }] }] }

/-- Glyph with code point `c` and a box of 10 by 10 at horizontal position `x`. -/
def glyphAt (x : Int) (c : Int) : fz_text_char := { bbox := ⟨x, 0, x + 10, 10⟩, c := c }

/-- Page with the single line `foo   bar` (three spaces), every glyph with a non-empty box. -/
def pageFooBar : fz_text_page :=
  { blocks := [{ lines := [{ spans := [{ text :=
      [glyphAt 0 102, glyphAt 10 111, glyphAt 20 111, glyphAt 30 32, glyphAt 40 32,
       glyphAt 50 32, glyphAt 60 98, glyphAt 70 97, glyphAt 80 114] }] }] }] }

/-- The needle `foo bar` as decoded runes. -/
def needleFooBar : List Int := [102, 111, 111, 32, 98, 97, 114]

/-- Outline with the single node `A`: a page-goto with a title whose page number is -1. -/
def outlineUnresolved : fz_outline :=
  .node (some "A") .FZ_LINK_GOTO (-1) .null .null

/-- The outline `A -> (B -> D), C` of the specification, all nodes titled page-gotos. -/
def outlineABDC : fz_outline :=
  .node (some "A") .FZ_LINK_GOTO 0
    (.node (some "B") .FZ_LINK_GOTO 1
      (.node (some "D") .FZ_LINK_GOTO 3 .null .null)
      (.node (some "C") .FZ_LINK_GOTO 2 .null .null))
    .null

/-- The same outline with the title of `B` missing. -/
def outlineUntitledB : fz_outline :=
  .node (some "A") .FZ_LINK_GOTO 0
    (.node none .FZ_LINK_GOTO 1
      (.node (some "D") .FZ_LINK_GOTO 3 .null .null)
      (.node (some "C") .FZ_LINK_GOTO 2 .null .null))
    .null

/-! ## Victim selection: `GetPageCacheIndex` -/

theorem abs_nonneg (x : Int) : 0 ≤ abs x := by
  unfold abs; split <;> omega

/-- An unused slot ends the loop of `GetPageCacheIndex` at its index, when all slots before it
are loaded. -/
theorem GetPageCacheIndex.loop_unused (p : Int) (l : List PageCache) :
    ∀ (i : Nat) (furthest furthestDist : Int) (k : Nat) (pc : PageCache),
      l[k]? = some pc → pc.page = none →
      (∀ (j : Nat) (pcj : PageCache), j < k → l[j]? = some pcj → pcj.page ≠ none) →
      GetPageCacheIndex.loop p l i furthest furthestDist = ((i + k : Nat) : Int) := by
  induction l with
  | nil => intro i f fd k pc h; simp at h
  | cons hd tl ih =>
    intro i f fd k pc hk hnone hbefore
    cases k with
    | zero =>
      simp at hk
      subst hk
      simp [GetPageCacheIndex.loop, hnone]
    | succ k =>
      have hhd : hd.page ≠ none := hbefore 0 hd (by omega) (by simp)
      have hrest : ∀ j pcj, j < k → tl[j]? = some pcj → pcj.page ≠ none := by
        intro j pcj hj hget
        exact hbefore (j + 1) pcj (by omega) (by simpa using hget)
      have hk2 : tl[k]? = some pc := by simpa using hk
      have e1 := ih (i + 1) (i : Int) (abs (hd.number - p)) k pc hk2 hnone hrest
      have e2 := ih (i + 1) f fd k pc hk2 hnone hrest
      have hsome : hd.page.isNone = false := by
        cases h : hd.page with
        | none => exact absurd h hhd
        | some _ => rfl
      have harith : i + 1 + k = i + (k + 1) := by omega
      simp only [GetPageCacheIndex.loop, hsome, Bool.false_eq_true, if_false]
      split
      · rw [e1, harith]
      · rw [e2, harith]

/-- With only loaded slots, the loop of `GetPageCacheIndex` either keeps the running `furthest`
(no slot is further than `furthestDist`) or returns the first slot of greatest distance. -/
theorem GetPageCacheIndex.loop_loaded (p : Int) (l : List PageCache) :
    ∀ (i : Nat) (furthest furthestDist : Int),
      (∀ pc ∈ l, pc.page.isSome = true) →
      (GetPageCacheIndex.loop p l i furthest furthestDist = furthest ∧
        ∀ (j : Nat) (pcj : PageCache), l[j]? = some pcj → abs (pcj.number - p) ≤ furthestDist) ∨
      (∃ k pc, l[k]? = some pc ∧
        GetPageCacheIndex.loop p l i furthest furthestDist = ((i + k : Nat) : Int) ∧
        furthestDist < abs (pc.number - p) ∧
        (∀ (j : Nat) (pcj : PageCache), l[j]? = some pcj →
          abs (pcj.number - p) ≤ abs (pc.number - p)) ∧
        (∀ (j : Nat) (pcj : PageCache), j < k → l[j]? = some pcj →
          abs (pcj.number - p) < abs (pc.number - p))) := by
  induction l with
  | nil =>
    intro i f fd _
    left
    simp [GetPageCacheIndex.loop]
  | cons hd tl ih =>
    intro i f fd hall
    have hhd : hd.page.isNone = false := by
      have := hall hd (by simp)
      cases h : hd.page with
      | none => simp [h] at this
      | some _ => rfl
    have htl : ∀ pc ∈ tl, pc.page.isSome = true := fun pc hpc => hall pc (by simp [hpc])
    simp only [GetPageCacheIndex.loop, hhd, Bool.false_eq_true, if_false]
    split
    next hgt =>
      right
      rcases ih (i + 1) (i : Int) (abs (hd.number - p)) htl with ⟨hr, hle⟩ | ⟨k, pc, hk, hr, hlt, hmax, hfirst⟩
      · refine ⟨0, hd, by simp, by simpa using hr, hgt, ?_, ?_⟩
        · intro j pcj hj
          cases j with
          | zero => simp at hj; subst hj; exact le_refl _
          | succ j => exact hle j pcj (by simpa using hj)
        · intro j pcj hj; omega
      · refine ⟨k + 1, pc, by simpa using hk, ?_, by omega, ?_, ?_⟩
        · rw [hr]; congr 1; omega
        · intro j pcj hj
          cases j with
          | zero => simp at hj; subst hj; omega
          | succ j => exact hmax j pcj (by simpa using hj)
        · intro j pcj hjk hj
          cases j with
          | zero => simp at hj; subst hj; exact hlt
          | succ j => exact hfirst j pcj (by omega) (by simpa using hj)
    next hle0 =>
      rcases ih (i + 1) f fd htl with ⟨hr, hle⟩ | ⟨k, pc, hk, hr, hlt, hmax, hfirst⟩
      · left
        refine ⟨hr, ?_⟩
        intro j pcj hj
        cases j with
        | zero => simp at hj; subst hj; omega
        | succ j => exact hle j pcj (by simpa using hj)
      · right
        refine ⟨k + 1, pc, by simpa using hk, ?_, hlt, ?_, ?_⟩
        · rw [hr]; congr 1; omega
        · intro j pcj hj
          cases j with
          | zero => simp at hj; subst hj; omega
          | succ j => exact hmax j pcj (by simpa using hj)
        · intro j pcj hjk hj
          cases j with
          | zero => simp at hj; subst hj; omega
          | succ j => exact hfirst j pcj (by omega) (by simpa using hj)

theorem slotDist_of_get (doc : MuPDFDoc) (p : Int) (j : Nat) (pc : PageCache)
    (h : doc.m_pages[j]? = some pc) : slotDist doc p j = abs (pc.number - p) := by
  simp [slotDist, h]

/-- C1. `GetPageCacheIndex(p)` picks the victim slot as specified.  If some slot has no loaded
page, the result is the lowest index of such a slot.  Otherwise (all slots loaded, at least one
slot) the result is the lowest index that maximises `|number_i - p|`.  Consequently, when all
slots are loaded, a slot that is strictly nearer to `p` than some other slot is never the
victim. -/
theorem GetPageCacheIndex_victim (doc : MuPDFDoc) (p : Int) :
    (∀ (i : Nat) (pc : PageCache), doc.m_pages[i]? = some pc → pc.page = none →
        (∀ (j : Nat) (pcj : PageCache), j < i → doc.m_pages[j]? = some pcj → pcj.page ≠ none) →
        GetPageCacheIndex doc p = (i : Int)) ∧
    (allLoaded doc → doc.m_pages ≠ [] →
        ∃ r : Nat, GetPageCacheIndex doc p = (r : Int) ∧ r < doc.m_pages.length ∧
          (∀ j : Nat, j < doc.m_pages.length → slotDist doc p j ≤ slotDist doc p r) ∧
          (∀ j : Nat, j < r → slotDist doc p j < slotDist doc p r)) ∧
    (allLoaded doc → ∀ near far : Nat, near < doc.m_pages.length → far < doc.m_pages.length →
        slotDist doc p near < slotDist doc p far → GetPageCacheIndex doc p ≠ (near : Int)) := by
  have hfull : allLoaded doc → doc.m_pages ≠ [] →
      ∃ r : Nat, GetPageCacheIndex doc p = (r : Int) ∧ r < doc.m_pages.length ∧
        (∀ j : Nat, j < doc.m_pages.length → slotDist doc p j ≤ slotDist doc p r) ∧
        (∀ j : Nat, j < r → slotDist doc p j < slotDist doc p r) := by
    intro hall hne
    rcases GetPageCacheIndex.loop_loaded p doc.m_pages 0 0 (-1) hall with
      ⟨_, hle⟩ | ⟨k, pc, hk, hr, _, hmax, hfirst⟩
    · exfalso
      cases hl : doc.m_pages with
      | nil => exact hne hl
      | cons hd tl =>
        have h0 := hle 0 hd (by simp [hl])
        have := abs_nonneg (hd.number - p)
        omega
    · have hklt : k < doc.m_pages.length := (List.getElem?_eq_some.mp hk).1
      refine ⟨k, ?_, hklt, ?_, ?_⟩
      · simpa [GetPageCacheIndex] using hr
      · intro j hj
        have hget : doc.m_pages[j]? = some doc.m_pages[j] := List.getElem?_eq_getElem hj
        rw [slotDist_of_get doc p j _ hget, slotDist_of_get doc p k pc hk]
        exact hmax j _ hget
      · intro j hj
        have hjl : j < doc.m_pages.length := by omega
        have hget : doc.m_pages[j]? = some doc.m_pages[j] := List.getElem?_eq_getElem hjl
        rw [slotDist_of_get doc p j _ hget, slotDist_of_get doc p k pc hk]
        exact hfirst j _ hj hget
  refine ⟨?_, hfull, ?_⟩
  · intro i pc hi hnone hbefore
    have := GetPageCacheIndex.loop_unused p doc.m_pages 0 0 (-1) i pc hi hnone hbefore
    simpa [GetPageCacheIndex] using this
  · intro hall near far hnear hfar hlt heq
    have hne : doc.m_pages ≠ [] := by
      intro h; rw [h] at hnear; simp at hnear
    obtain ⟨r, hr, _, hmax, _⟩ := hfull hall hne
    have hrn : r = near := by
      have : (r : Int) = (near : Int) := by rw [← hr, heq]
      exact_mod_cast this
    have := hmax far hfar
    rw [hrn] at this
    omega

/-- Instance of C1: with one loaded slot followed by unused ones the victim is slot 1; with the
pages 10, 2, 7 loaded and page 3 requested the victim is slot 0 (distance 7), never slot 1. -/
theorem GetPageCacheIndex_victim_witness :
    GetPageCacheIndex sampleOneLoaded 3 = 1 ∧
    (∃ r : Nat, GetPageCacheIndex sampleFull 3 = (r : Int) ∧ r < sampleFull.m_pages.length ∧
      (∀ j : Nat, j < sampleFull.m_pages.length → slotDist sampleFull 3 j ≤ slotDist sampleFull 3 r) ∧
      (∀ j : Nat, j < r → slotDist sampleFull 3 j < slotDist sampleFull 3 r)) ∧
    GetPageCacheIndex sampleFull 3 ≠ 1 :=
  ⟨(GetPageCacheIndex_victim sampleOneLoaded 3).1 1 freshSlot (by decide) (by decide)
      (by
        intro j pcj hj hget
        have hj0 : j = 0 := by omega
        subst hj0
        simp [sampleOneLoaded] at hget
        subst hget
        simp),
   (GetPageCacheIndex_victim sampleFull 3).2.1 (by decide) (by decide),
   (GetPageCacheIndex_victim sampleFull 3).2.2 (by decide) 1 0 (by decide) (by decide)
      (by decide)⟩

/-! ## Lookup: `FindPageInCache` -/

/-- The lookup returns `-1` or the index of a loaded slot holding the page. -/
theorem FindPageInCache.loop_result (p : Int) (l : List PageCache) :
    ∀ i : Nat, FindPageInCache.loop p l i = -1 ∨
      ∃ (k : Nat) (pc : PageCache), l[k]? = some pc ∧
        FindPageInCache.loop p l i = ((i + k : Nat) : Int) ∧
        pc.page.isSome = true ∧ pc.number = p := by
  induction l with
  | nil => intro i; left; rfl
  | cons hd tl ih =>
    intro i
    by_cases hm : hd.page.isSome = true ∧ hd.number = p
    · right
      exact ⟨0, hd, by simp, by simp [FindPageInCache.loop, hm], hm.1, hm.2⟩
    · rcases ih (i + 1) with h | ⟨k, pc, hk, hr, hpc⟩
      · left; simp [FindPageInCache.loop, hm, h]
      · right
        refine ⟨k + 1, pc, by simpa using hk, ?_, hpc⟩
        simp only [FindPageInCache.loop, hm, if_false]
        rw [hr]; congr 1; omega

/-- A negative lookup result means that no loaded slot holds the page. -/
theorem FindPageInCache.loop_neg (p : Int) (l : List PageCache) :
    ∀ i : Nat, FindPageInCache.loop p l i < 0 →
      ∀ pc ∈ l, ¬ (pc.page.isSome = true ∧ pc.number = p) := by
  induction l with
  | nil => intro i _ pc hpc; simp at hpc
  | cons hd tl ih =>
    intro i hneg pc hpc
    by_cases hm : hd.page.isSome = true ∧ hd.number = p
    · simp [FindPageInCache.loop, hm] at hneg
      omega
    · simp only [FindPageInCache.loop, hm, if_false] at hneg
      rcases List.mem_cons.mp hpc with h | h
      · rw [h]; exact hm
      · exact ih (i + 1) hneg pc h

/-- The lookup returns the first loaded slot that holds the page. -/
theorem FindPageInCache.loop_first (p : Int) (l : List PageCache) :
    ∀ (i k : Nat) (pc : PageCache), l[k]? = some pc →
      pc.page.isSome = true → pc.number = p →
      (∀ (j : Nat) (pcj : PageCache), j < k → l[j]? = some pcj →
        ¬ (pcj.page.isSome = true ∧ pcj.number = p)) →
      FindPageInCache.loop p l i = ((i + k : Nat) : Int) := by
  induction l with
  | nil => intro i k pc h; simp at h
  | cons hd tl ih =>
    intro i k pc hk hpage hnum hbefore
    cases k with
    | zero =>
      simp at hk
      subst hk
      simp [FindPageInCache.loop, hpage, hnum]
    | succ k =>
      have hm : ¬ (hd.page.isSome = true ∧ hd.number = p) := hbefore 0 hd (by omega) (by simp)
      simp only [FindPageInCache.loop, hm, if_false]
      rw [ih (i + 1) k pc (by simpa using hk) hpage hnum
        (fun j pcj hj hget => hbefore (j + 1) pcj (by omega) (by simpa using hget))]
      congr 1; omega

/-- The lookup fails when no loaded slot holds the page. -/
theorem FindPageInCache.loop_none (p : Int) (l : List PageCache) :
    ∀ i : Nat, (∀ pc ∈ l, ¬ (pc.page.isSome = true ∧ pc.number = p)) →
      FindPageInCache.loop p l i = -1 := by
  induction l with
  | nil => intro i _; rfl
  | cons hd tl ih =>
    intro i h
    have hm : ¬ (hd.page.isSome = true ∧ hd.number = p) := h hd (by simp)
    simp only [FindPageInCache.loop, hm, if_false]
    exact ih (i + 1) (fun pc hpc => h pc (by simp [hpc]))

/-- The loop of `GetPageCacheIndex` keeps the running `furthest`, in which case every slot is
loaded, or returns the index of a slot before which every slot is loaded. -/
theorem GetPageCacheIndex.loop_before (p : Int) (l : List PageCache) :
    ∀ (i : Nat) (furthest furthestDist : Int),
      (GetPageCacheIndex.loop p l i furthest furthestDist = furthest ∧
        ∀ pc ∈ l, pc.page.isSome = true) ∨
      (∃ k : Nat, k < l.length ∧
        GetPageCacheIndex.loop p l i furthest furthestDist = ((i + k : Nat) : Int) ∧
        ∀ (j : Nat) (pcj : PageCache), j < k → l[j]? = some pcj → pcj.page.isSome = true) := by
  induction l with
  | nil => intro i f fd; left; simp [GetPageCacheIndex.loop]
  | cons hd tl ih =>
    intro i f fd
    cases hp : hd.page with
    | none =>
      right
      exact ⟨0, by simp, by simp [GetPageCacheIndex.loop, hp], fun j pcj hj _ => by omega⟩
    | some h =>
      have hstep : ∀ (f2 fd2 : Int),
          (GetPageCacheIndex.loop p tl (i + 1) f2 fd2 = f2 ∧
            ∀ pc ∈ hd :: tl, pc.page.isSome = true) ∨
          (∃ k : Nat, k < (hd :: tl).length ∧
            GetPageCacheIndex.loop p tl (i + 1) f2 fd2 = ((i + k : Nat) : Int) ∧
            ∀ (j : Nat) (pcj : PageCache), j < k → (hd :: tl)[j]? = some pcj →
              pcj.page.isSome = true) := by
        intro f2 fd2
        rcases ih (i + 1) f2 fd2 with ⟨hr, hall⟩ | ⟨k, hk, hr, hbefore⟩
        · left
          refine ⟨hr, ?_⟩
          intro pc hpc
          rcases List.mem_cons.mp hpc with e | e
          · rw [e, hp]; rfl
          · exact hall pc e
        · right
          refine ⟨k + 1, by simpa using hk, ?_, ?_⟩
          · rw [hr]; congr 1; omega
          · intro j pcj hj hget
            cases j with
            | zero => simp at hget; subst hget; rw [hp]; rfl
            | succ j => exact hbefore j pcj (by omega) (by simpa using hget)
      simp only [GetPageCacheIndex.loop, hp, Option.isNone_some, Bool.false_eq_true, if_false]
      split
      · rcases hstep (i : Int) (abs (hd.number - p)) with ⟨hr, _⟩ | h2
        · right
          exact ⟨0, by simp, by simpa using hr, fun j pcj hj _ => by omega⟩
        · right; exact h2
      · exact hstep f fd

/-- On a cache with at least one slot, `GetPageCacheIndex` returns a valid slot index, and all
slots before it are loaded. -/
theorem GetPageCacheIndex_range (doc : MuPDFDoc) (p : Int) (hne : doc.m_pages ≠ []) :
    ∃ k : Nat, GetPageCacheIndex doc p = (k : Int) ∧ k < doc.m_pages.length ∧
      ∀ (j : Nat) (pcj : PageCache), j < k → doc.m_pages[j]? = some pcj →
        pcj.page.isSome = true := by
  rcases GetPageCacheIndex.loop_before p doc.m_pages 0 0 (-1) with ⟨hr, _⟩ | ⟨k, hk, hr, hb⟩
  · refine ⟨0, by simpa [GetPageCacheIndex] using hr, ?_, fun j pcj hj _ => by omega⟩
    exact List.length_pos.mpr hne
  · exact ⟨k, by simpa [GetPageCacheIndex] using hr, hk, hb⟩

/-! ## Page selection: `GotoPage` -/

theorem loadInto_number (pc : PageCache) (p : Int) (eng : LoadOutcome) :
    (loadInto pc p eng).2.number = p := by
  cases eng <;> rfl

theorem loadInto_ok (pc : PageCache) (p : Int) (eng : LoadOutcome)
    (h : (loadInto pc p eng).1 = HRESULT.S_OK) : (loadInto pc p eng).2.page.isSome = true := by
  cases eng <;> simp [loadInto] at h ⊢

theorem GotoPage_hit (doc : MuPDFDoc) (p : Int) (eng : LoadOutcome)
    (h : 0 ≤ FindPageInCache doc p) :
    GotoPage doc p eng = (HRESULT.S_OK, { doc with m_currentPage := FindPageInCache doc p }) := by
  have h2 : FindPageInCache doc p ≥ 0 := h
  show (if FindPageInCache doc p ≥ 0 then _ else _) = _
  rw [if_pos h2]

theorem GotoPage_miss (doc : MuPDFDoc) (p : Int) (eng : LoadOutcome)
    (h : FindPageInCache doc p < 0) :
    GotoPage doc p eng =
      ((loadInto (doc.m_pages.getD (GetPageCacheIndex doc p).toNat freshSlot) p eng).1,
       { m_pages := doc.m_pages.set (GetPageCacheIndex doc p).toNat
           (loadInto (doc.m_pages.getD (GetPageCacheIndex doc p).toNat freshSlot) p eng).2,
         m_currentPage := GetPageCacheIndex doc p }) := by
  have h2 : ¬ (FindPageInCache doc p ≥ 0) := by omega
  show (if FindPageInCache doc p ≥ 0 then _ else _) = _
  rw [if_neg h2]

theorem GotoPage_length (doc : MuPDFDoc) (p : Int) (eng : LoadOutcome) :
    (GotoPage doc p eng).2.m_pages.length = doc.m_pages.length := by
  by_cases h : 0 ≤ FindPageInCache doc p
  · rw [GotoPage_hit doc p eng h]
  · rw [GotoPage_miss doc p eng (by omega)]
    simp

/-- A property that holds of the starting state and is kept by every call of the sequence
holds of the state after the sequence. -/
theorem runGotoPages_induction (P : MuPDFDoc → Prop) (calls : List (Int × LoadOutcome)) :
    ∀ doc : MuPDFDoc, P doc →
      (∀ (d : MuPDFDoc) (call : Int × LoadOutcome), call ∈ calls → P d →
        P (GotoPage d call.1 call.2).2) →
      P (runGotoPages doc calls) := by
  induction calls with
  | nil => intro doc h0 _; exact h0
  | cons c cs ih =>
    intro doc h0 hstep
    show P (runGotoPages (GotoPage doc c.1 c.2).2 cs)
    exact ih _ (hstep doc c (by simp) h0) (fun d call hc hd => hstep d call (by simp [hc]) hd)

theorem runGotoPages_length (doc : MuPDFDoc) (calls : List (Int × LoadOutcome)) :
    (runGotoPages doc calls).m_pages.length = doc.m_pages.length :=
  runGotoPages_induction (fun d => d.m_pages.length = doc.m_pages.length) calls doc rfl
    (fun d call _ hd => by
      show (GotoPage d call.1 call.2).2.m_pages.length = doc.m_pages.length
      rw [GotoPage_length]; exact hd)

/-- A successful `GotoPage(p)` on a cache with at least one slot leaves a valid current index
whose slot holds page `p` with a loaded handle; on a cache hit no slot is touched. -/
theorem GotoPage_success (doc : MuPDFDoc) (p : Int) (eng : LoadOutcome)
    (hne : doc.m_pages ≠ []) (hok : (GotoPage doc p eng).1 = HRESULT.S_OK) :
    0 ≤ (GotoPage doc p eng).2.m_currentPage ∧
    (GotoPage doc p eng).2.m_currentPage < (doc.m_pages.length : Int) ∧
    (∃ pc : PageCache,
      (GotoPage doc p eng).2.m_pages[(GotoPage doc p eng).2.m_currentPage.toNat]? = some pc ∧
      pc.number = p ∧ pc.page.isSome = true) ∧
    (0 ≤ FindPageInCache doc p → (GotoPage doc p eng).2.m_pages = doc.m_pages) := by
  by_cases h : 0 ≤ FindPageInCache doc p
  · rw [GotoPage_hit doc p eng h]
    rcases FindPageInCache.loop_result p doc.m_pages 0 with hneg | ⟨k, pc, hk, hr, hpage, hnum⟩
    · exfalso
      have : FindPageInCache doc p = -1 := hneg
      omega
    · have hr2 : FindPageInCache doc p = (k : Int) := by simpa [FindPageInCache] using hr
      have hklt : k < doc.m_pages.length := (List.getElem?_eq_some.mp hk).1
      refine ⟨by simp [hr2], by simp [hr2, hklt], ⟨pc, ?_, hnum, hpage⟩, fun _ => rfl⟩
      simpa [hr2] using hk
  · have hmiss : FindPageInCache doc p < 0 := by omega
    rw [GotoPage_miss doc p eng hmiss] at hok ⊢
    obtain ⟨k, hk, hklt, _⟩ := GetPageCacheIndex_range doc p hne
    refine ⟨by simp [hk], by simp [hk, hklt], ⟨_, ?_, loadInto_number _ _ _, loadInto_ok _ _ _ hok⟩,
      fun h2 => absurd h2 h⟩
    simp only [hk, Int.toNat_ofNat]
    exact List.getElem?_set_self (by simpa using hklt)

/-- C2. The most recently selected page is resident and current: after any sequence of
`GotoPage` calls from the freshly constructed cache (each engine load succeeding or failing),
a `GotoPage(p)` that returns success leaves the current index in `[0, NUM_CACHE)`, the current
slot numbered `p` and its page handle non-null; when `p` was already cached the slots are
reused as they are. -/
theorem GotoPage_selected_page_resident (NUM_CACHE : Nat) (hN : 0 < NUM_CACHE)
    (calls : List (Int × LoadOutcome)) (p : Int) (eng : LoadOutcome)
    (hok : (GotoPage (runGotoPages (MuPDFDoc.new NUM_CACHE) calls) p eng).1 = HRESULT.S_OK) :
    0 ≤ (GotoPage (runGotoPages (MuPDFDoc.new NUM_CACHE) calls) p eng).2.m_currentPage ∧
    (GotoPage (runGotoPages (MuPDFDoc.new NUM_CACHE) calls) p eng).2.m_currentPage
      < (NUM_CACHE : Int) ∧
    (∃ pc : PageCache,
      (GotoPage (runGotoPages (MuPDFDoc.new NUM_CACHE) calls) p eng).2.m_pages[
        (GotoPage (runGotoPages (MuPDFDoc.new NUM_CACHE) calls) p eng).2.m_currentPage.toNat]?
        = some pc ∧
      pc.number = p ∧ pc.page.isSome = true) ∧
    (0 ≤ FindPageInCache (runGotoPages (MuPDFDoc.new NUM_CACHE) calls) p →
      (GotoPage (runGotoPages (MuPDFDoc.new NUM_CACHE) calls) p eng).2.m_pages
        = (runGotoPages (MuPDFDoc.new NUM_CACHE) calls).m_pages) := by
  have hlen : (runGotoPages (MuPDFDoc.new NUM_CACHE) calls).m_pages.length = NUM_CACHE := by
    rw [runGotoPages_length]; simp [MuPDFDoc.new]
  have hne : (runGotoPages (MuPDFDoc.new NUM_CACHE) calls).m_pages ≠ [] := by
    intro h; rw [h] at hlen; simp at hlen; omega
  have := GotoPage_success _ p eng hne hok
  rw [hlen] at this
  exact this

/-- Instance of C2: on a cache of three slots, after pages 0 to 3 were selected (the load of
page 2 failing), selecting page 1 again succeeds and page 1 is current and loaded. -/
theorem GotoPage_selected_page_resident_witness :
    (GotoPage (runGotoPages (MuPDFDoc.new 3) sampleCalls) 1 .loadThrows).1 = HRESULT.S_OK ∧
    0 ≤ (GotoPage (runGotoPages (MuPDFDoc.new 3) sampleCalls) 1 .loadThrows).2.m_currentPage ∧
    (GotoPage (runGotoPages (MuPDFDoc.new 3) sampleCalls) 1 .loadThrows).2.m_currentPage
      < ((3 : Nat) : Int) ∧
    (∃ pc : PageCache,
      (GotoPage (runGotoPages (MuPDFDoc.new 3) sampleCalls) 1 .loadThrows).2.m_pages[
        (GotoPage (runGotoPages (MuPDFDoc.new 3) sampleCalls) 1 .loadThrows).2.m_currentPage.toNat]?
        = some pc ∧
      pc.number = 1 ∧ pc.page.isSome = true) ∧
    (0 ≤ FindPageInCache (runGotoPages (MuPDFDoc.new 3) sampleCalls) 1 →
      (GotoPage (runGotoPages (MuPDFDoc.new 3) sampleCalls) 1 .loadThrows).2.m_pages
        = (runGotoPages (MuPDFDoc.new 3) sampleCalls).m_pages) :=
  ⟨by decide,
   GotoPage_selected_page_resident 3 (by decide) sampleCalls 1 .loadThrows (by decide)⟩

/-! ## Invariants of the cache -/

/-- A slot read after a store into slot `k` is the stored slot or an old slot. -/
theorem getElem?_set_cases (l : List PageCache) (k i : Nat) (a x : PageCache)
    (h : (l.set k a)[i]? = some x) : (i = k ∧ x = a) ∨ (i ≠ k ∧ l[i]? = some x) := by
  rw [List.getElem?_set] at h
  by_cases hki : k = i
  · left
    rw [if_pos hki] at h
    split at h
    · exact ⟨hki.symm, by simpa using h.symm⟩
    · simp at h
  · right
    rw [if_neg hki] at h
    exact ⟨fun e => hki e.symm, h⟩

theorem noDuplicatePage_new (NUM_CACHE : Nat) : noDuplicatePage (MuPDFDoc.new NUM_CACHE) := by
  intro i j pi pj hi _ _ hpi _
  have hmem : pi ∈ List.replicate NUM_CACHE freshSlot := List.mem_iff_getElem?.mpr ⟨i, hi⟩
  have : pi = freshSlot := (List.mem_replicate.mp hmem).2
  rw [this] at hpi
  simp [freshSlot] at hpi

/-- `GotoPage` keeps the cache free of duplicate pages: a slot is only filled after the lookup
has failed. -/
theorem GotoPage_noDuplicatePage (doc : MuPDFDoc) (p : Int) (eng : LoadOutcome)
    (h : noDuplicatePage doc) : noDuplicatePage (GotoPage doc p eng).2 := by
  by_cases hf : 0 ≤ FindPageInCache doc p
  · rw [GotoPage_hit doc p eng hf]
    exact h
  · have hmiss : FindPageInCache doc p < 0 := by omega
    rw [GotoPage_miss doc p eng hmiss]
    have hnot := FindPageInCache.loop_neg p doc.m_pages 0 hmiss
    intro i j pi pj hi hj hij hpi hpj
    rcases getElem?_set_cases _ _ _ _ _ hi with ⟨hik, hpie⟩ | ⟨_, hi2⟩
    · rcases getElem?_set_cases _ _ _ _ _ hj with ⟨hjk, _⟩ | ⟨_, hj2⟩
      · omega
      · have hn : pi.number = p := by rw [hpie]; exact loadInto_number _ _ _
        intro heq
        exact hnot pj (List.mem_iff_getElem?.mpr ⟨j, hj2⟩) ⟨hpj, by rw [← heq, hn]⟩
    · rcases getElem?_set_cases _ _ _ _ _ hj with ⟨_, hpje⟩ | ⟨_, hj2⟩
      · have hn : pj.number = p := by rw [hpje]; exact loadInto_number _ _ _
        intro heq
        exact hnot pi (List.mem_iff_getElem?.mpr ⟨i, hi2⟩) ⟨hpi, by rw [heq, hn]⟩
      · exact h i j pi pj hi2 hj2 hij hpi hpj

/-- C5. No page is cached twice: in every state reachable from the freshly constructed cache
by any sequence of `GotoPage` calls (each engine load succeeding or failing), no two distinct
slots that hold a loaded page handle have the same page number. -/
theorem no_page_cached_twice (NUM_CACHE : Nat) (calls : List (Int × LoadOutcome))
    (i j : Nat) (pi pj : PageCache) :
    (runGotoPages (MuPDFDoc.new NUM_CACHE) calls).m_pages[i]? = some pi →
    (runGotoPages (MuPDFDoc.new NUM_CACHE) calls).m_pages[j]? = some pj →
    i ≠ j → pi.page.isSome = true → pj.page.isSome = true → pi.number ≠ pj.number :=
  runGotoPages_induction noDuplicatePage calls (MuPDFDoc.new NUM_CACHE)
    (noDuplicatePage_new NUM_CACHE)
    (fun d call _ hd => GotoPage_noDuplicatePage d call.1 call.2 hd) i j pi pj

/-- Instance of C5: after the sample sequence on three slots, slots 0 and 1 are both loaded and
hold different pages. -/
theorem no_page_cached_twice_witness :
    (runGotoPages (MuPDFDoc.new 3) sampleCalls).m_pages[0]? = some sampleSlot0 ∧
    (runGotoPages (MuPDFDoc.new 3) sampleCalls).m_pages[1]? = some sampleSlot1 ∧
    sampleSlot0.page.isSome = true ∧ sampleSlot1.page.isSome = true ∧
    sampleSlot0.number ≠ sampleSlot1.number :=
  ⟨by decide, by decide, by decide, by decide,
   no_page_cached_twice 3 sampleCalls 0 1 sampleSlot0 sampleSlot1
    (by decide) (by decide) (by decide) (by decide) (by decide)⟩

/-- A call of `GotoPage` for a page number that is not negative keeps every slot untouched or
numbered with a page number that is not negative. -/
theorem GotoPage_untouchedOrNumbered (doc : MuPDFDoc) (p : Int) (eng : LoadOutcome)
    (hp : 0 ≤ p) (h : untouchedOrNumbered doc) : untouchedOrNumbered (GotoPage doc p eng).2 := by
  by_cases hf : 0 ≤ FindPageInCache doc p
  · rw [GotoPage_hit doc p eng hf]
    exact h
  · rw [GotoPage_miss doc p eng (by omega)]
    intro pc hpc
    rcases List.mem_or_eq_of_mem_set hpc with hold | hnew
    · exact h pc hold
    · right
      rw [hnew, loadInto_number]
      exact hp

/-- C4, counterexample. The slot invariant as stated fails in both directions: after a failed
load of page 5 a slot has number 5 and no page handle, and after a successful load for the
page number -2 a slot has a page handle and a negative number. -/
theorem slot_invariant_counterexample :
    ¬ (∀ pc ∈ (runGotoPages (MuPDFDoc.new 3) [(5, LoadOutcome.loadThrows)]).m_pages,
        (pc.page.isSome = true ↔ 0 ≤ pc.number)) ∧
    ¬ (∀ pc ∈ (runGotoPages (MuPDFDoc.new 3)
          [(-2, LoadOutcome.loaded 1 ⟨0, 0, 612, 792⟩ ⟨0, 0, 612, 792⟩)]).m_pages,
        (pc.page.isSome = true ↔ 0 ≤ pc.number)) := by
  decide

/-- C4, amended. In every state reachable from the freshly constructed cache by `GotoPage`
calls whose page numbers are not negative (each engine load succeeding or failing), a slot
whose page handle is non-null has a page number `>= 0`, and a slot whose page number is
negative is exactly as the constructor left it (number -1, no page handle). -/
theorem slot_loaded_implies_numbered (NUM_CACHE : Nat) (calls : List (Int × LoadOutcome))
    (hcalls : ∀ call ∈ calls, 0 ≤ call.1) :
    ∀ pc ∈ (runGotoPages (MuPDFDoc.new NUM_CACHE) calls).m_pages,
      (pc.page.isSome = true → 0 ≤ pc.number) ∧ (pc.number < 0 → pc = freshSlot) := by
  have hinv : untouchedOrNumbered (runGotoPages (MuPDFDoc.new NUM_CACHE) calls) :=
    runGotoPages_induction untouchedOrNumbered calls (MuPDFDoc.new NUM_CACHE)
      (fun pc hpc => Or.inl (List.mem_replicate.mp hpc).2)
      (fun d call hc hd => GotoPage_untouchedOrNumbered d call.1 call.2 (hcalls call hc) hd)
  intro pc hpc
  rcases hinv pc hpc with hfresh | hnum
  · refine ⟨?_, fun _ => hfresh⟩
    rw [hfresh]
    simp [freshSlot]
  · exact ⟨fun _ => hnum, fun hneg => by omega⟩

/-- Instance of the amended C4 on the sample sequence: the slot that holds page 3 is loaded and
its number is not negative. -/
theorem slot_loaded_implies_numbered_witness :
    (∀ call ∈ sampleCalls, 0 ≤ call.1) ∧
    ∀ pc ∈ (runGotoPages (MuPDFDoc.new 3) sampleCalls).m_pages,
      (pc.page.isSome = true → 0 ≤ pc.number) ∧ (pc.number < 0 → pc = freshSlot) :=
  ⟨by decide, slot_loaded_implies_numbered 3 sampleCalls (by decide)⟩

/-! ## Failed selection -/

theorem loadInto_fail (pc : PageCache) (p : Int) (eng : LoadOutcome)
    (hfail : eng = LoadOutcome.loadThrows ∨ ∃ h : Handle, eng = LoadOutcome.boundThrows h) :
    (loadInto pc p eng).1 = HRESULT.E_FAIL ∧ (loadInto pc p eng).2.width = 100 ∧
    (loadInto pc p eng).2.height = 100 := by
  rcases hfail with h | ⟨h, hh⟩
  · subst h; exact ⟨rfl, rfl, rfl⟩
  · subst hh; exact ⟨rfl, rfl, rfl⟩

/-- After a failed selection of an uncached page `p`, on any cache with at least one slot: the
call reports failure, the chosen slot is current, numbered `p` with the 100 x 100 placeholder,
the other slots are unchanged, and a repeated `GotoPage(p)` makes the same slot current and
leaves the other slots unchanged. -/
theorem GotoPage_failure (doc : MuPDFDoc) (p : Int) (eng retry : LoadOutcome)
    (hne : doc.m_pages ≠ []) (hunc : FindPageInCache doc p < 0)
    (hfail : eng = LoadOutcome.loadThrows ∨ ∃ h : Handle, eng = LoadOutcome.boundThrows h) :
    (GotoPage doc p eng).1 = HRESULT.E_FAIL ∧
    (GotoPage doc p eng).2.m_currentPage = GetPageCacheIndex doc p ∧
    0 ≤ GetPageCacheIndex doc p ∧
    GetPageCacheIndex doc p < (doc.m_pages.length : Int) ∧
    (∃ pc : PageCache,
      (GotoPage doc p eng).2.m_pages[(GetPageCacheIndex doc p).toNat]? = some pc ∧
      pc.number = p ∧ pc.width = 100 ∧ pc.height = 100) ∧
    (∀ j : Nat, j ≠ (GetPageCacheIndex doc p).toNat →
      (GotoPage doc p eng).2.m_pages[j]? = doc.m_pages[j]?) ∧
    (GotoPage (GotoPage doc p eng).2 p retry).2.m_currentPage = GetPageCacheIndex doc p ∧
    (∀ j : Nat, j ≠ (GetPageCacheIndex doc p).toNat →
      (GotoPage (GotoPage doc p eng).2 p retry).2.m_pages[j]? = doc.m_pages[j]?) := by
  obtain ⟨k, hk, hklt, hbefore⟩ := GetPageCacheIndex_range doc p hne
  have hnot := FindPageInCache.loop_neg p doc.m_pages 0 hunc
  rw [GotoPage_miss doc p eng hunc]
  simp only [hk, Int.toNat_ofNat]
  generalize hr2 : (loadInto (doc.m_pages.getD k freshSlot) p eng).2 = r2
  have hr2n : r2.number = p := by rw [← hr2]; exact loadInto_number _ _ _
  obtain ⟨hf1, hf2, hf3⟩ := loadInto_fail (doc.m_pages.getD k freshSlot) p eng hfail
  rw [hr2] at hf2 hf3
  have hgetk : (doc.m_pages.set k r2)[k]? = some r2 := List.getElem?_set_self hklt
  have hother : ∀ j : Nat, j ≠ k → (doc.m_pages.set k r2)[j]? = doc.m_pages[j]? :=
    fun j hj => List.getElem?_set_ne (fun e => hj e.symm)
  refine ⟨hf1, trivial, by omega, by exact_mod_cast hklt, ⟨r2, hgetk, hr2n, hf2, hf3⟩, hother, ?_⟩
  by_cases hpage : r2.page.isSome = true
  · -- the page was loaded before the failure: the retry finds slot `k` in the cache
    have hfind : FindPageInCache { m_pages := doc.m_pages.set k r2, m_currentPage := (k : Int) } p
        = (k : Int) := by
      have := FindPageInCache.loop_first p (doc.m_pages.set k r2) 0 k r2 hgetk hpage hr2n
        (fun j pcj hj hget => by
          rw [hother j (by omega)] at hget
          exact hnot pcj (List.mem_iff_getElem?.mpr ⟨j, hget⟩))
      simpa [FindPageInCache] using this
    rw [GotoPage_hit _ p retry (by rw [hfind]; omega), hfind]
    exact ⟨rfl, hother⟩
  · -- no page was loaded: the retry misses and picks slot `k` again, the first unused slot
    have hnone : r2.page = none := by
      cases h : r2.page with
      | none => rfl
      | some _ => simp [h] at hpage
    have hfind : FindPageInCache { m_pages := doc.m_pages.set k r2, m_currentPage := (k : Int) } p
        < 0 := by
      have := FindPageInCache.loop_none p (doc.m_pages.set k r2) 0 (fun pc hpc => by
        rcases List.mem_or_eq_of_mem_set hpc with hold | hnew
        · exact hnot pc hold
        · rw [hnew]; exact fun hm => hpage hm.1)
      have h2 : FindPageInCache { m_pages := doc.m_pages.set k r2, m_currentPage := (k : Int) } p
          = -1 := this
      omega
    have hidx : GetPageCacheIndex { m_pages := doc.m_pages.set k r2, m_currentPage := (k : Int) } p
        = (k : Int) := by
      have := GetPageCacheIndex.loop_unused p (doc.m_pages.set k r2) 0 0 (-1) k r2 hgetk hnone
        (fun j pcj hj hget => by
          rw [hother j (by omega)] at hget
          have := hbefore j pcj hj hget
          intro h0
          rw [h0] at this
          simp at this)
      simpa [GetPageCacheIndex] using this
    rw [GotoPage_miss _ p retry hfind]
    simp only [hidx, Int.toNat_ofNat]
    refine ⟨trivial, fun j hj => ?_⟩
    rw [List.getElem?_set_ne (fun e => hj e.symm)]
    exact hother j hj

/-- C6. Failed selection keeps a usable, retry-friendly slot: in every state reachable from the
freshly constructed cache and for every uncached page `p`, if the engine fails while loading
or bounding `p` then `GotoPage(p)` returns failure, the chosen slot is current with number `p`
and width = height = 100, every other slot is unchanged, and an immediately repeated
`GotoPage(p)` (whatever the engine does then) selects the same slot index and leaves every
other slot unchanged. -/
theorem GotoPage_failure_keeps_slot (NUM_CACHE : Nat) (hN : 0 < NUM_CACHE)
    (calls : List (Int × LoadOutcome)) (p : Int) (eng retry : LoadOutcome)
    (hunc : FindPageInCache (runGotoPages (MuPDFDoc.new NUM_CACHE) calls) p < 0)
    (hfail : eng = LoadOutcome.loadThrows ∨ ∃ h : Handle, eng = LoadOutcome.boundThrows h) :
    (GotoPage (runGotoPages (MuPDFDoc.new NUM_CACHE) calls) p eng).1 = HRESULT.E_FAIL ∧
    (GotoPage (runGotoPages (MuPDFDoc.new NUM_CACHE) calls) p eng).2.m_currentPage
      = GetPageCacheIndex (runGotoPages (MuPDFDoc.new NUM_CACHE) calls) p ∧
    0 ≤ GetPageCacheIndex (runGotoPages (MuPDFDoc.new NUM_CACHE) calls) p ∧
    GetPageCacheIndex (runGotoPages (MuPDFDoc.new NUM_CACHE) calls) p < (NUM_CACHE : Int) ∧
    (∃ pc : PageCache,
      (GotoPage (runGotoPages (MuPDFDoc.new NUM_CACHE) calls) p eng).2.m_pages[
        (GetPageCacheIndex (runGotoPages (MuPDFDoc.new NUM_CACHE) calls) p).toNat]? = some pc ∧
      pc.number = p ∧ pc.width = 100 ∧ pc.height = 100) ∧
    (∀ j : Nat, j ≠ (GetPageCacheIndex (runGotoPages (MuPDFDoc.new NUM_CACHE) calls) p).toNat →
      (GotoPage (runGotoPages (MuPDFDoc.new NUM_CACHE) calls) p eng).2.m_pages[j]?
        = (runGotoPages (MuPDFDoc.new NUM_CACHE) calls).m_pages[j]?) ∧
    (GotoPage (GotoPage (runGotoPages (MuPDFDoc.new NUM_CACHE) calls) p eng).2 p
        retry).2.m_currentPage
      = GetPageCacheIndex (runGotoPages (MuPDFDoc.new NUM_CACHE) calls) p ∧
    (∀ j : Nat, j ≠ (GetPageCacheIndex (runGotoPages (MuPDFDoc.new NUM_CACHE) calls) p).toNat →
      (GotoPage (GotoPage (runGotoPages (MuPDFDoc.new NUM_CACHE) calls) p eng).2 p
          retry).2.m_pages[j]?
        = (runGotoPages (MuPDFDoc.new NUM_CACHE) calls).m_pages[j]?) := by
  have hlen : (runGotoPages (MuPDFDoc.new NUM_CACHE) calls).m_pages.length = NUM_CACHE := by
    rw [runGotoPages_length]; simp [MuPDFDoc.new]
  have hne : (runGotoPages (MuPDFDoc.new NUM_CACHE) calls).m_pages ≠ [] := by
    intro h; rw [h] at hlen; simp at hlen; omega
  have := GotoPage_failure _ p eng retry hne hunc hfail
  rw [hlen] at this
  exact this

/-- Instance of C6: on the full cache reached by the sample sequence, the failed selection of
page 9 takes slot 0 (page 0, the furthest) and a retry that succeeds takes slot 0 again. -/
theorem GotoPage_failure_keeps_slot_witness :
    FindPageInCache (runGotoPages (MuPDFDoc.new 3) sampleCalls) 9 < 0 ∧
    (GotoPage (runGotoPages (MuPDFDoc.new 3) sampleCalls) 9 (.boundThrows 7)).1
      = HRESULT.E_FAIL ∧
    (GotoPage (runGotoPages (MuPDFDoc.new 3) sampleCalls) 9 (.boundThrows 7)).2.m_currentPage
      = GetPageCacheIndex (runGotoPages (MuPDFDoc.new 3) sampleCalls) 9 :=
  ⟨by decide,
   (GotoPage_failure_keeps_slot 3 (by decide) sampleCalls 9 (.boundThrows 7)
      (.loaded 8 ⟨0, 0, 612, 792⟩ ⟨0, 0, 612, 792⟩) (by decide) (Or.inr ⟨7, rfl⟩)).1,
   (GotoPage_failure_keeps_slot 3 (by decide) sampleCalls 9 (.boundThrows 7)
      (.loaded 8 ⟨0, 0, 612, 792⟩ ⟨0, 0, 612, 792⟩) (by decide) (Or.inr ⟨7, rfl⟩)).2.1⟩

/-! ## Incremental update: `UpdatePage` -/

/-- Building the display lists changes neither the number nor the page handle of the slot. -/
theorem buildLists_slot (pc : PageCache) (eng : DrawEngine) :
    (buildLists pc eng).2.number = pc.number ∧ (buildLists pc eng).2.page = pc.page := by
  obtain ⟨pl, al, r⟩ := eng
  cases hpl : pc.pageList <;> cases hal : pc.annotList <;> rcases r with _ | s <;>
    (try cases s) <;> simp [buildLists, hpl, hal]

/-- When the engine did not raise while the lists were built, both lists exist. -/
theorem buildLists_lists (pc : PageCache) (eng : DrawEngine)
    (h : (buildLists pc eng).1 = false) :
    (buildLists pc eng).2.pageList.isSome = true ∧
    (buildLists pc eng).2.annotList.isSome = true := by
  obtain ⟨pl, al, r⟩ := eng
  cases hpl : pc.pageList <;> cases hal : pc.annotList <;> rcases r with _ | s <;>
    (try cases s) <;> simp [buildLists, hpl, hal] at h ⊢

/-- The fallback of `UpdatePage`: when the page is in no slot of a cache with at least one slot,
`UpdatePage` is `GotoPage` followed by `DrawPage`; it always has a result, and on success the
current slot holds the requested page, loaded, and the whole rectangle was composited from the
lists of that slot. -/
theorem UpdatePage_uncached (doc : MuPDFDoc) (p : Int) (load : LoadOutcome) (eng : DrawEngine)
    (hne : doc.m_pages ≠ []) (hunc : FindPageInCache doc p < 0) :
    UpdatePage doc p load eng =
      (if (GotoPage doc p load).1 = HRESULT.E_FAIL then
        some ((GotoPage doc p load).1, (GotoPage doc p load).2, Painted.nothing)
       else DrawPage (GotoPage doc p load).2 eng) ∧
    ∃ (hr : HRESULT) (doc1 : MuPDFDoc) (painted : Painted),
      UpdatePage doc p load eng = some (hr, doc1, painted) ∧
      (hr = HRESULT.S_OK →
        ∃ pc : PageCache, currentSlot doc1 = some pc ∧ pc.number = p ∧
          pc.page.isSome = true ∧ painted = Painted.full pc) := by
  have hdef : UpdatePage doc p load eng =
      (if (GotoPage doc p load).1 = HRESULT.E_FAIL then
        some ((GotoPage doc p load).1, (GotoPage doc p load).2, Painted.nothing)
       else DrawPage (GotoPage doc p load).2 eng) := by
    simp only [UpdatePage, hunc, if_true]
  refine ⟨hdef, ?_⟩
  rw [hdef]
  by_cases hfail : (GotoPage doc p load).1 = HRESULT.E_FAIL
  · rw [if_pos hfail]
    exact ⟨_, _, _, rfl, fun h => by rw [hfail] at h; exact absurd h (by decide)⟩
  · rw [if_neg hfail]
    have hok : (GotoPage doc p load).1 = HRESULT.S_OK := by
      cases h : (GotoPage doc p load).1 with
      | S_OK => rfl
      | E_FAIL => exact absurd h hfail
    obtain ⟨h0, hlt, ⟨pc, hpc, hnum, hpage⟩, _⟩ := GotoPage_success doc p load hne hok
    have hlen := GotoPage_length doc p load
    generalize GotoPage doc p load = r at *
    have hcur : currentSlot r.2 = some pc := by
      have : ¬ r.2.m_currentPage < 0 := by omega
      simp [currentSlot, this, hpc]
    have hidx : r.2.m_currentPage.toNat < r.2.m_pages.length := by omega
    obtain ⟨hbn, hbp⟩ := buildLists_slot pc eng
    simp only [DrawPage, hcur]
    by_cases hraised : (buildLists pc eng).1 = true
    · simp only [hraised, if_true]
      exact ⟨_, _, _, rfl, fun h => absurd h (by decide)⟩
    · have hnr : (buildLists pc eng).1 = false := by simpa using hraised
      obtain ⟨hl1, hl2⟩ := buildLists_lists pc eng hnr
      have hnoph : ¬ ((buildLists pc eng).2.pageList.isNone = true ∧
          (buildLists pc eng).2.annotList.isNone = true) := by
        intro hc
        have := hc.1
        simp [Option.isNone_iff_eq_none] at this
        simp [this] at hl1
      simp only [hnr, Bool.false_eq_true, if_false, hnoph]
      by_cases hcomp : eng.raisesAt = some DrawStage.composite
      · simp only [hcomp, if_true]
        exact ⟨_, _, _, rfl, fun h => absurd h (by decide)⟩
      · simp only [hcomp, if_false]
        refine ⟨_, _, _, rfl, fun _ => ⟨(buildLists pc eng).2, ?_, by rw [hbn, hnum],
          by rw [hbp, hpage], rfl⟩⟩
        have hge : ¬ r.2.m_currentPage < 0 := by omega
        simp only [currentSlot, hge, if_false]
        exact List.getElem?_set_self hidx

theorem FindPageInCache.loop_replicate (p : Int) (k i : Nat) :
    FindPageInCache.loop p (List.replicate k freshSlot) i = -1 :=
  FindPageInCache.loop_none p _ i (fun pc hpc => by
    rw [(List.mem_replicate.mp hpc).2]
    simp [freshSlot])

/-- State after pages 0 and 1 were selected on a cache of at least two slots: page 0 in slot 0,
page 1 in slot 1, slot 1 current. -/
theorem runGotoPages_twoPages (k : Nat) :
    runGotoPages (MuPDFDoc.new (k + 2)) twoPages = afterTwoPages k := by
  have hpage : freshSlot.page = none := rfl
  have h1 : GotoPage (MuPDFDoc.new (k + 2)) 0 (.loaded 1 ⟨0, 0, 612, 792⟩ ⟨0, 0, 612, 792⟩) =
      (HRESULT.S_OK, afterPage0 k) := by
    have hfind : FindPageInCache (MuPDFDoc.new (k + 2)) 0 = -1 :=
      FindPageInCache.loop_replicate 0 (k + 2) 0
    have hidx : GetPageCacheIndex (MuPDFDoc.new (k + 2)) 0 = 0 := by
      simp [GetPageCacheIndex, MuPDFDoc.new, List.replicate_succ, GetPageCacheIndex.loop, hpage]
    rw [GotoPage_miss _ _ _ (by rw [hfind]; decide), hidx]
    simp [MuPDFDoc.new, List.replicate_succ, afterPage0]
    exact ⟨rfl, rfl⟩
  have h2 : GotoPage (afterPage0 k) 1 (.loaded 2 ⟨0, 0, 612, 792⟩ ⟨0, 0, 612, 792⟩) =
      (HRESULT.S_OK, afterTwoPages k) := by
    have hfind : FindPageInCache (afterPage0 k) 1 = -1 := by
      simp [afterPage0, FindPageInCache, FindPageInCache.loop, FindPageInCache.loop_replicate,
        hpage, sampleSlot0]
    have hidx : GetPageCacheIndex (afterPage0 k) 1 = 1 := by
      simp [afterPage0, GetPageCacheIndex, GetPageCacheIndex.loop, hpage, sampleSlot0, abs]
    rw [GotoPage_miss _ _ _ (by rw [hfind]; decide), hidx]
    simp [afterPage0, afterTwoPages]
    exact ⟨rfl, rfl⟩
  show (GotoPage (GotoPage (MuPDFDoc.new (k + 2)) 0 _).2 1 _).2 = _
  rw [h1, h2]

/-- C3, failing input. On a cache of at least two slots, after `GotoPage(0)` and `GotoPage(1)`
succeeded, page 0 is cached in slot 0 and slot 1 (page 1) is current.  `UpdatePage(0, ...)`
then finds page 0 in the cache, does not fall back to `GotoPage(0)` and `DrawPage`, repaints
from the lists of the current slot, which holds page 1, and returns success with page 1 still
current. -/
theorem UpdatePage_cached_page_not_current (k : Nat) (load : LoadOutcome) :
    FindPageInCache (runGotoPages (MuPDFDoc.new (k + 2)) twoPages) 0 = 0 ∧
    currentSlot (runGotoPages (MuPDFDoc.new (k + 2)) twoPages) = some sampleSlot1 ∧
    sampleSlot1.number = 1 ∧
    UpdatePage (runGotoPages (MuPDFDoc.new (k + 2)) twoPages) 0 load ⟨10, 11, none⟩ =
      some (HRESULT.S_OK,
            { m_pages := sampleSlot0 :: sampleSlot1Drawn :: List.replicate k freshSlot,
              m_currentPage := 1 },
            Painted.patches sampleSlot1Drawn) := by
  rw [runGotoPages_twoPages]
  have hfind : FindPageInCache (afterTwoPages k) 0 = 0 := by
    simp [afterTwoPages, FindPageInCache, FindPageInCache.loop, sampleSlot0]
  have hcur : currentSlot (afterTwoPages k) = some sampleSlot1 := by
    simp [afterTwoPages, currentSlot]
  refine ⟨hfind, hcur, rfl, ?_⟩
  have hnot : ¬ (FindPageInCache (afterTwoPages k) 0 < 0) := by rw [hfind]; decide
  simp only [UpdatePage, hnot, if_false, hcur]
  simp [afterTwoPages, buildLists, sampleSlot1, sampleSlot1Drawn]

/-! ## Page text: `TextLen` and `TextCharAt` -/

/-- C10, failing input. On a page whose first line has no span and whose second line is `a`,
the flattened text of the specification is separator, `a`, separator, and `TextLen` agrees with
its length 3; but `TextCharAt(page, 0)` is the glyph `a` where the flattened text has the
separator of the empty line, and `TextCharAt(page, 1)` is the separator where the flattened
text has `a`. -/
theorem TextCharAt_empty_line :
    flatText pageEmptyLine = [emptychar, glyphA, emptychar] ∧
    TextLen pageEmptyLine = (flatText pageEmptyLine).length ∧
    TextCharAt pageEmptyLine 0 = glyphA ∧
    (flatText pageEmptyLine)[0]? ≠ some (TextCharAt pageEmptyLine 0) ∧
    TextCharAt pageEmptyLine 1 = emptychar ∧
    (flatText pageEmptyLine)[1]? ≠ some (TextCharAt pageEmptyLine 1) := by
  decide

/-- The span loop of `TextLen` adds the number of characters of the spans. -/
theorem TextLen.spans_length (spans : List fz_text_span) :
    ∀ len : Nat, TextLen.spans spans len
      = len + (spans.map (fun span => span.text)).flatten.length := by
  induction spans with
  | nil => intro len; simp [TextLen.spans]
  | cons span rest ih => intro len; simp [TextLen.spans, ih]; omega

/-- The line loop of `TextLen` adds the length of the flattened lines. -/
theorem TextLen.lines_length (lines : List fz_text_line) :
    ∀ len : Nat, TextLen.lines lines len = len + (lines.map flatLine).flatten.length := by
  induction lines with
  | nil => intro len; simp [TextLen.lines]
  | cons line rest ih =>
    intro len
    simp [TextLen.lines, ih, TextLen.spans_length, flatLine]
    omega

/-- The block loop of `TextLen` adds the length of the flattened blocks. -/
theorem TextLen.blocks_length (blocks : List fz_text_block) :
    ∀ len : Nat, TextLen.blocks blocks len
      = len + (blocks.map (fun block => (block.lines.map flatLine).flatten)).flatten.length := by
  induction blocks with
  | nil => intro len; simp [TextLen.blocks]
  | cons block rest ih =>
    intro len
    simp [TextLen.blocks, ih, TextLen.lines_length]
    omega

/-- `TextLen` is the length of the flattened text, for every page. -/
theorem TextLen_eq_flatText_length (page : fz_text_page) :
    TextLen page = (flatText page).length := by
  simp [TextLen, flatText, TextLen.blocks_length]

/-- Outcome of a scan of `TextCharAt` that agrees with a flattened text `flat` placed at offset
`ofs`: the character at `idx - ofs` when there is one, else the offset after `flat`. -/
theorem TextCharAt.spans_flat (idx : Nat) (spans : List fz_text_span) :
    ∀ ofs : Nat, spans ≠ [] → ofs ≤ idx →
      TextCharAt.spans idx spans ofs =
        match (flatLine { spans := spans })[idx - ofs]? with
        | some ch => Scan.found ch
        | none => Scan.next (ofs + (flatLine { spans := spans }).length) := by
  induction spans with
  | nil => intro ofs h; exact absurd rfl h
  | cons span rest ih =>
    intro ofs _ hofs
    by_cases hlt : idx < ofs + span.text.length
    · have hi : idx - ofs < span.text.length := by omega
      have hget : (flatLine { spans := span :: rest })[idx - ofs]? = some (span.text[idx - ofs]) := by
        simp only [flatLine, List.map_cons, List.flatten_cons, List.append_assoc]
        rw [List.getElem?_append_left hi, List.getElem?_eq_getElem hi]
      rw [hget]
      simp [TextCharAt.spans, hlt, List.getElem?_eq_getElem hi]
    · cases rest with
      | nil =>
        by_cases heq : idx = ofs + span.text.length
        · have hget : (flatLine { spans := [span] })[idx - ofs]? = some emptychar := by
            have : idx - ofs = span.text.length := by omega
            simp [flatLine, this]
          rw [hget]
          simp [TextCharAt.spans, hlt, heq]
        · have hget : (flatLine { spans := [span] })[idx - ofs]? = none := by
            apply List.getElem?_eq_none
            simp [flatLine]
            omega
          rw [hget]
          simp [TextCharAt.spans, hlt, heq, flatLine]
          omega
      | cons span2 rest2 =>
        have hrec := ih (ofs + span.text.length) (by simp) (by omega)
        have hflat : flatLine { spans := span :: span2 :: rest2 }
            = span.text ++ flatLine { spans := span2 :: rest2 } := by
          simp [flatLine]
        have hidx : (flatLine { spans := span :: span2 :: rest2 })[idx - ofs]?
            = (flatLine { spans := span2 :: rest2 })[idx - (ofs + span.text.length)]? := by
          rw [hflat, List.getElem?_append_right (by omega)]
          congr 1
          omega
        have hlen : ofs + (flatLine { spans := span :: span2 :: rest2 }).length
            = ofs + span.text.length + (flatLine { spans := span2 :: rest2 }).length := by
          rw [hflat, List.length_append]; omega
        rw [hidx, hlen, ← hrec]
        simp [TextCharAt.spans, hlt]

/-- The line loop of `TextCharAt` on lines that all have a span agrees with the flattened lines
placed at offset `ofs`. -/
theorem TextCharAt.lines_flat (idx : Nat) (lines : List fz_text_line) :
    ∀ ofs : Nat, (∀ line ∈ lines, line.spans ≠ []) → ofs ≤ idx →
      TextCharAt.lines idx lines ofs =
        match ((lines.map flatLine).flatten)[idx - ofs]? with
        | some ch => Scan.found ch
        | none => Scan.next (ofs + ((lines.map flatLine).flatten).length) := by
  induction lines with
  | nil => intro ofs _ _; simp [TextCharAt.lines]
  | cons line rest ih =>
    intro ofs hall hofs
    have hline : line.spans ≠ [] := hall line (by simp)
    have hspans := TextCharAt.spans_flat idx line.spans ofs hline hofs
    have hfl : flatLine { spans := line.spans } = flatLine line := rfl
    rw [hfl] at hspans
    simp only [TextCharAt.lines, List.map_cons, List.flatten_cons]
    by_cases hlt : idx - ofs < (flatLine line).length
    · rw [List.getElem?_append_left hlt]
      rw [List.getElem?_eq_getElem hlt] at hspans ⊢
      rw [hspans]
    · have hnone : (flatLine line)[idx - ofs]? = none := List.getElem?_eq_none (by omega)
      rw [hnone] at hspans
      rw [hspans]
      simp only []
      rw [ih (ofs + (flatLine line).length) (fun l hl => hall l (by simp [hl])) (by omega)]
      rw [List.getElem?_append_right (by omega)]
      have e1 : idx - (ofs + (flatLine line).length) = idx - ofs - (flatLine line).length := by
        omega
      rw [e1, List.length_append, Nat.add_assoc]

/-- The block loop of `TextCharAt` on blocks whose lines all have a span agrees with the
flattened blocks placed at offset `ofs`. -/
theorem TextCharAt.blocks_flat (idx : Nat) (blocks : List fz_text_block) :
    ∀ ofs : Nat, (∀ block ∈ blocks, ∀ line ∈ block.lines, line.spans ≠ []) → ofs ≤ idx →
      TextCharAt.blocks idx blocks ofs =
        match ((blocks.map (fun block => (block.lines.map flatLine).flatten)).flatten)[idx - ofs]?
        with
        | some ch => Scan.found ch
        | none => Scan.next (ofs +
            ((blocks.map (fun block => (block.lines.map flatLine).flatten)).flatten).length) := by
  induction blocks with
  | nil => intro ofs _ _; simp [TextCharAt.blocks]
  | cons block rest ih =>
    intro ofs hall hofs
    have hlines := TextCharAt.lines_flat idx block.lines ofs (hall block (by simp)) hofs
    simp only [TextCharAt.blocks, List.map_cons, List.flatten_cons]
    by_cases hlt : idx - ofs < ((block.lines.map flatLine).flatten).length
    · rw [List.getElem?_append_left hlt]
      rw [List.getElem?_eq_getElem hlt] at hlines ⊢
      rw [hlines]
    · have hnone : ((block.lines.map flatLine).flatten)[idx - ofs]? = none :=
        List.getElem?_eq_none (by omega)
      rw [hnone] at hlines
      rw [hlines]
      simp only []
      rw [ih (ofs + ((block.lines.map flatLine).flatten).length)
        (fun b hb => hall b (by simp [hb])) (by omega)]
      rw [List.getElem?_append_right (by omega)]
      have e1 : idx - (ofs + ((block.lines.map flatLine).flatten).length)
          = idx - ofs - ((block.lines.map flatLine).flatten).length := by
        omega
      rw [e1, List.length_append, Nat.add_assoc]

/-- On a page whose lines all have at least one span, indexed access agrees with the flattened
text: `TextCharAt(page, idx)` is the character `idx` of the flattened text for every `idx` below
`TextLen(page)`. -/
theorem TextCharAt_eq_flatText (page : fz_text_page)
    (hlines : ∀ block ∈ page.blocks, ∀ line ∈ block.lines, line.spans ≠ [])
    (idx : Nat) (hidx : idx < TextLen page) :
    (flatText page)[idx]? = some (TextCharAt page idx) := by
  rw [TextLen_eq_flatText_length] at hidx
  have h := TextCharAt.blocks_flat idx page.blocks 0 hlines (Nat.zero_le idx)
  have hget : (flatText page)[idx]? = some ((flatText page)[idx]) :=
    List.getElem?_eq_getElem hidx
  simp only [Nat.sub_zero] at h
  unfold TextCharAt
  rw [h]
  change (flatText page)[idx]? = some (match (match (flatText page)[idx]? with
      | some ch => Scan.found ch
      | none => Scan.next _) with
    | Scan.found ch => ch
    | Scan.next _ => emptychar)
  rw [hget]

/-- Past the flattened line the span loop of `TextCharAt` goes on, with an offset that is not
beyond the end of the flattened line. -/
theorem TextCharAt.spans_past (idx : Nat) (spans : List fz_text_span) :
    ∀ ofs : Nat, ofs + (flatLine { spans := spans }).length ≤ idx →
      ∃ ofs1 : Nat, TextCharAt.spans idx spans ofs = Scan.next ofs1 ∧
        ofs1 ≤ ofs + (flatLine { spans := spans }).length := by
  induction spans with
  | nil => intro ofs _; exact ⟨ofs, rfl, by omega⟩
  | cons span rest ih =>
    intro ofs h
    have hlen : (flatLine { spans := span :: rest }).length
        = span.text.length + (flatLine { spans := rest }).length := by
      simp [flatLine]
    have hrest : 1 ≤ (flatLine { spans := rest }).length := by simp [flatLine]
    have hlt : ¬ idx < ofs + span.text.length := by omega
    cases rest with
    | nil =>
      have hne : ¬ idx = ofs + span.text.length := by omega
      refine ⟨ofs + 1 + span.text.length, by simp [TextCharAt.spans, hlt, hne], ?_⟩
      simp [flatLine]; omega
    | cons span2 rest2 =>
      obtain ⟨ofs1, h1, h2⟩ := ih (ofs + span.text.length) (by omega)
      refine ⟨ofs1, ?_, by omega⟩
      rw [TextCharAt.spans, if_neg hlt]
      simp only [List.isEmpty_cons, Bool.false_eq_true, if_false]
      exact h1

/-- Past the flattened lines the line loop of `TextCharAt` goes on. -/
theorem TextCharAt.lines_past (idx : Nat) (lines : List fz_text_line) :
    ∀ ofs : Nat, ofs + ((lines.map flatLine).flatten).length ≤ idx →
      ∃ ofs1 : Nat, TextCharAt.lines idx lines ofs = Scan.next ofs1 ∧
        ofs1 ≤ ofs + ((lines.map flatLine).flatten).length := by
  induction lines with
  | nil => intro ofs _; exact ⟨ofs, rfl, by simp⟩
  | cons line rest ih =>
    intro ofs h
    simp only [List.map_cons, List.flatten_cons, List.length_append] at h ⊢
    obtain ⟨ofs1, h1, h2⟩ := TextCharAt.spans_past idx line.spans ofs (by
      show ofs + (flatLine line).length ≤ idx
      omega)
    have h2b : ofs1 ≤ ofs + (flatLine line).length := h2
    obtain ⟨ofs2, h3, h4⟩ := ih ofs1 (by omega)
    exact ⟨ofs2, by simp [TextCharAt.lines, h1, h3], by omega⟩

/-- Past the flattened blocks the block loop of `TextCharAt` goes on. -/
theorem TextCharAt.blocks_past (idx : Nat) (blocks : List fz_text_block) :
    ∀ ofs : Nat,
      ofs + ((blocks.map (fun block => (block.lines.map flatLine).flatten)).flatten).length ≤ idx →
      ∃ ofs1 : Nat, TextCharAt.blocks idx blocks ofs = Scan.next ofs1 := by
  induction blocks with
  | nil => intro ofs _; exact ⟨ofs, rfl⟩
  | cons block rest ih =>
    intro ofs h
    simp only [List.map_cons, List.flatten_cons, List.length_append] at h
    obtain ⟨ofs1, h1, h2⟩ := TextCharAt.lines_past idx block.lines ofs (by omega)
    obtain ⟨ofs2, h3⟩ := ih ofs1 (by omega)
    exact ⟨ofs2, by simp [TextCharAt.blocks, h1, h3]⟩

/-- From `TextLen(page)` on, `TextCharAt` returns `emptychar`, a space, on every page. -/
theorem TextCharAt_past_end (page : fz_text_page) (idx : Nat) (h : TextLen page ≤ idx) :
    TextCharAt page idx = emptychar := by
  rw [TextLen_eq_flatText_length] at h
  obtain ⟨ofs1, h1⟩ := TextCharAt.blocks_past idx page.blocks 0 (by
    simpa [flatText] using h)
  simp [TextCharAt, h1]

/-! ## Search: `Match` and `SearchText` -/

/-- On the page `a`, every offset from 1 on reads as a space: offset 1 is the pseudo-newline and
every offset after the text is `emptychar`. -/
theorem CharAt_pageA (n : Nat) (hn : 1 ≤ n) : CharAt pageA n = 32 := by
  have h0 : ¬ n < 1 := by omega
  by_cases h1 : n = 1
  · subst h1; decide
  · simp [CharAt, TextCharAt, TextCharAt.blocks, TextCharAt.lines, TextCharAt.spans, pageA, h0,
      h1, emptychar]

/-- The space-skipping loop of `Match` never ends on the page `a` from offset 1 on. -/
theorem Match.skip_pageA (fuel : Nat) : ∀ n : Nat, 1 ≤ n → Match.skip pageA fuel n = none := by
  induction fuel with
  | zero => intro n _; rfl
  | succ f ih =>
    intro n hn
    simp only [Match.skip, CharAt_pageA n hn, if_true]
    exact ih (n + 1) (by omega)

/-- C7, failing input. On the page with the single line `a` (`TextLen` = 2) the call
`Match(page, "a ", 0)` does not return: after `a` is matched, the needle space meets the
pseudo-newline at offset 1, and the loop `while (CharAt(page, n) == ' ') n++` finds a space at
every offset from 1 on, also past the end of the text, so no amount of fuel lets it end. -/
theorem Match_trailing_space_diverges (fuel : Nat) :
    TextLen pageA = 2 ∧
    (∀ n : Nat, 1 ≤ n → CharAt pageA n = 32) ∧
    Match fuel pageA [97, 32] 0 = none := by
  refine ⟨by decide, CharAt_pageA, ?_⟩
  have h0 : CharAt pageA 0 = 97 := by decide
  have h1 : CharAt pageA 1 = 32 := by decide
  simp [Match, Match.loop, h0, h1, tolower, Match.skip_pageA fuel 1 (le_refl 1)]

/-- On the page `a a`, every offset from 3 on reads as a space. -/
theorem CharAt_pageAA (n : Nat) (hn : 3 ≤ n) : CharAt pageAA n = 32 := by
  have h0 : ¬ n < 3 := by omega
  by_cases h1 : n = 3
  · subst h1; decide
  · simp [CharAt, TextCharAt, TextCharAt.blocks, TextCharAt.lines, TextCharAt.spans, pageAA, h0,
      h1, emptychar]

/-- The space-skipping loop of `Match` never ends on the page `a a` from offset 3 on. -/
theorem Match.skip_pageAA (fuel : Nat) : ∀ n : Nat, 3 ≤ n → Match.skip pageAA fuel n = none := by
  induction fuel with
  | zero => intro n _; rfl
  | succ f ih =>
    intro n hn
    simp only [Match.skip, CharAt_pageAA n hn, if_true]
    exact ih (n + 1) (by omega)

/-- C8, failing input. With `u = v = "a"` and `k = 1` the page has the single line `a a`
(`TextLen` = 4, every glyph with a non-empty box) and the needle is `a a`.  For every hit cap of
at least 2, `SearchText` does not return: the match at offset 0 is recorded, offset 1 does not
match, and at offset 2 the last `a` matches the `a` of the needle, the needle space meets the
pseudo-newline at offset 3 and the space-skipping loop of `Match` never ends. -/
theorem SearchText_repeated_word_diverges (m fuel : Nat) :
    TextLen pageAA = 4 ∧ SearchText ((m : Int) + 2) fuel pageAA [97, 32, 97] = none := by
  refine ⟨by decide, ?_⟩
  have hlen : TextLen pageAA = 4 := by decide
  have h0 : CharAt pageAA 0 = 97 := by decide
  have h1 : CharAt pageAA 1 = 32 := by decide
  have h2 : CharAt pageAA 2 = 97 := by decide
  have h3 : CharAt pageAA 3 = 32 := by decide
  have hM2 : Match fuel pageAA [97, 32, 97] 2 = none := by
    simp [Match, Match.loop, h2, h3, tolower, Match.skip_pageAA fuel 3 (le_refl 3)]
  have hM1 : Match fuel pageAA [97, 32, 97] 1 = some 0 := by
    simp [Match, Match.loop, h1, tolower]
  unfold SearchText
  rw [hlen]
  match fuel, hM1, hM2 with
  | 0, _, _ => simp [SearchText.loop, Match, Match.loop, Match.skip, h0, h1, tolower]
  | 1, _, _ => simp [SearchText.loop, Match, Match.loop, Match.skip, h0, h1, tolower]
  | f + 2, hM1, hM2 =>
    have hM0 : Match (f + 2) pageAA [97, 32, 97] 0 = some 3 := by
      simp [Match, Match.loop, Match.skip, h0, h1, h2, tolower]
    have hrr : SearchText.union pageAA 0 3 0 fz_empty_bbox = ⟨0, 0, 25, 10⟩ := by decide
    have hne : fz_is_empty_bbox ⟨0, 0, 25, 10⟩ = false := by decide
    have hrr1 : SearchText.union pageAA 1 0 0 fz_empty_bbox = fz_empty_bbox := rfl
    have he : fz_is_empty_bbox fz_empty_bbox = true := by decide
    have hcap : ¬ ((m : Int) + 2 ≤ 0 + 1) := by omega
    have hcap0 : (0 : Int) < (m : Int) + 2 := by omega
    simp [SearchText.loop, hM0, hM1, hM2, hrr, hne, hrr1, he, hcap0]
    omega

/-- The example of the specification: the needle `foo bar` on the line `foo   bar` gives
exactly one hit, the union of the boxes of the nine characters matched at offset 0. -/
theorem SearchText_foo_bar :
    Match 4 pageFooBar needleFooBar 0 = some 9 ∧
    SearchText 500 4 pageFooBar needleFooBar = some [⟨0, 0, 90, 10⟩] := by
  decide

theorem tolower_eq_space (c : Int) (h : tolower c = tolower 32) : c = 32 := by
  unfold tolower at h
  split at h <;> simp at h <;> omega

/-- A needle without a space never enters the space-skipping loop: `Match` returns for every
fuel, with 0 or the length of the needle, and stays within the text. -/
theorem Match.loop_space_free (page : fz_text_page) (fuel orig : Nat) (str : List Int) :
    ∀ n : Nat, (∀ c ∈ str, c ≠ 32) → orig ≤ n → n ≤ TextLen page →
      ∃ r : Nat, Match.loop page fuel orig str n = some r ∧
        (r = 0 ∨ (r = n + str.length - orig ∧ n + str.length ≤ TextLen page)) := by
  induction str with
  | nil => intro n _ _ hn; exact ⟨n - orig, rfl, Or.inr ⟨by simp, by simpa using hn⟩⟩
  | cons c str ih =>
    intro n hstr horig hn
    have hc : c ≠ 32 := hstr c (by simp)
    by_cases hm : tolower c ≠ tolower (CharAt page n)
    · exact ⟨0, by simp [Match.loop, hc, hm], Or.inl rfl⟩
    · have hlt : n < TextLen page := by
        by_contra hge
        have hsp : CharAt page n = 32 := by
          simp [CharAt, TextCharAt_past_end page n (by omega), emptychar]
        rw [hsp] at hm
        exact hc (tolower_eq_space c (not_not.mp hm))
      obtain ⟨r, hr, hcase⟩ := ih (n + 1) (fun c2 hc2 => hstr c2 (by simp [hc2])) (by omega)
        (by omega)
      refine ⟨r, by simp [Match.loop, hc, hm, hr], ?_⟩
      rcases hcase with h0 | ⟨h1, h2⟩
      · exact Or.inl h0
      · right
        simp only [List.length_cons]
        omega

/-- For a needle without a space, `Match(page, needle, p)` returns for every `p` below
`TextLen(page)`, whatever the fuel, with a length `n` such that `p + n <= TextLen(page)`. -/
theorem Match_space_free (page : fz_text_page) (fuel : Nat) (str : List Int) (p : Nat)
    (hstr : ∀ c ∈ str, c ≠ 32) (hp : p < TextLen page) :
    ∃ n : Nat, Match fuel page str p = some n ∧ p + n ≤ TextLen page := by
  obtain ⟨r, hr, hcase⟩ := Match.loop_space_free page fuel p str p hstr (le_refl p) (by omega)
  refine ⟨r, hr, ?_⟩
  rcases hcase with h0 | ⟨h1, h2⟩
  · omega
  · omega

/-! ## Outline: `FillOutline` and `GetOutline` -/

/-- What `FillOutline` does at one node: the item is appended and counted exactly when
`guardedItem` yields it. -/
theorem FillOutline_here (title : Option String) (kind : fz_link_kind) (page level : Int)
    (items : List Outlineitem) (position : Int) :
    (if kind = .FZ_LINK_GOTO then
        match title with
        | some t =>
          if page ≥ 0 then
            (items ++ [({ level := level, pageNumber := page, title := t } : Outlineitem)],
             position + 1)
          else (items, position)
        | none => (items, position)
      else (items, position)) =
    (items ++ (guardedItem (level, title, kind, page)).toList,
     position + ((guardedItem (level, title, kind, page)).toList.length : Int)) := by
  cases title with
  | none => by_cases hk : kind = .FZ_LINK_GOTO <;> by_cases hp : 0 ≤ page <;> simp [guardedItem, hk, hp]
  | some t => by_cases hk : kind = .FZ_LINK_GOTO <;> by_cases hp : 0 ≤ page <;> simp [guardedItem, hk, hp]

/-- `FillOutline` started at a position that is not negative never takes its abort branch: it
appends the guarded pre-order items of the forest and advances the position by their number. -/
theorem FillOutline_eq (outline : fz_outline) :
    ∀ (items : List Outlineitem) (position level : Int), 0 ≤ position →
      FillOutline outline items position level =
        (items ++ (preorder outline level).filterMap guardedItem,
         position + (((preorder outline level).filterMap guardedItem).length : Int)) := by
  induction outline with
  | null => intro items position level _; simp [FillOutline, preorder]
  | node title kind page down next ihd ihn =>
    intro items position level hpos
    simp only [FillOutline]
    rw [FillOutline_here]
    have hpos1 : 0 ≤ position + ((guardedItem (level, title, kind, page)).toList.length : Int) := by
      omega
    rw [ihd _ _ (level + 1) hpos1]
    have hpos2 : ¬ (position + ((guardedItem (level, title, kind, page)).toList.length : Int)
        + (((preorder down (level + 1)).filterMap guardedItem).length : Int) < 0) := by
      omega
    simp only [hpos2, if_false]
    rw [ihn _ _ level (by omega)]
    cases hg : guardedItem (level, title, kind, page) with
    | none =>
      simp [preorder, List.filterMap_cons, hg, List.filterMap_append]
      omega
    | some it =>
      simp [preorder, List.filterMap_cons, hg, List.filterMap_append]
      omega

/-- C9, counterexample. A node whose destination is a page-goto and which carries a title, but
whose page number is negative (-1), belongs to the flattening the claim describes and is not
returned by `GetOutline`. -/
theorem GetOutline_unresolved_page :
    GetOutline outlineUnresolved = [] ∧
    (preorder outlineUnresolved 0).filterMap statedItem
      = [{ level := 0, pageNumber := -1, title := "A" }] ∧
    GetOutline outlineUnresolved ≠ (preorder outlineUnresolved 0).filterMap statedItem := by
  refine ⟨by decide, by decide, ?_⟩
  have h1 : GetOutline outlineUnresolved = [] := by decide
  have h2 : (preorder outlineUnresolved 0).filterMap statedItem
      = [{ level := 0, pageNumber := -1, title := "A" }] := by decide
  rw [h1, h2]
  simp

/-- C9, amended. `GetOutline` is the filtered pre-order flattening of the outline forest: the
returned sequence is exactly the depth-first pre-order list of the nodes whose destination is a
page-goto to a page number `>= 0` and which carry a title, each with its depth as level (roots
at 0), its destination page and its title; the children of a node are visited at their depth
whether or not the node is emitted. -/
theorem GetOutline_preorder (m_outline : fz_outline) :
    GetOutline m_outline = (preorder m_outline 0).filterMap guardedItem := by
  simp [GetOutline, FillOutline_eq m_outline [] 0 0 (le_refl 0)]

/-- The example of the specification: the outline `A -> (B -> D), C` flattens to `A@0, B@1, D@2,
C@1`; without a title on `B`, `B` is left out and `D` is still at level 2. -/
theorem GetOutline_example :
    GetOutline outlineABDC =
      [⟨0, 0, "A"⟩, ⟨1, 1, "B"⟩, ⟨2, 3, "D"⟩, ⟨1, 2, "C"⟩] ∧
    GetOutline outlineUntitledB = [⟨0, 0, "A"⟩, ⟨2, 3, "D"⟩, ⟨1, 2, "C"⟩] := by
  decide

end MuPDF
